import Mathlib

/-!
# Verification of the sparse Merkle tree and its R1CS membership gadget

This file gives a shallow embedding, in Lean 4, of `src/gadget_vsmt_2.rs`:
a fixed-depth (32-level) sparse Merkle tree over field elements
(`VanillaSparseMerkleTree` with `new`, `get`, `update`, `verify_proof`)
together with the arithmetic-circuit gadget
`vanilla_merkle_merkle_tree_verif_gadget` that re-expresses path
verification as rank-1 constraints.

Modelling conventions:

* The scalar type (curve25519 `Scalar` in the source) is an abstract type
  `F` with decidable equality and a zero element; the two-to-one Poseidon
  hash (`Poseidon_hash_2`, which lives outside `src/`) is an abstract
  parameter `hash : F → F → F`.  Modelled from the spec: the hash oracle
  is a deterministic, fixed-arity two-to-one function; the same parameter
  object is used for every call against one tree, so we thread a single
  `hash` through all operations.
* The node store `db : HashMap<ScalarBytes, DBVal>` is keyed by the
  canonical fixed-width byte encoding of a scalar, which is injective on
  scalars, so we model the store as a partial map `F → Option (F × F)`
  keyed by the digest itself; `HashMap::insert` becomes
  `Function.update _ _ (some _)`.
* Modelled from the spec: `ScalarBits::from_scalar(&idx, TreeDepth)`
  (from `scalar_utils`, outside `src/`) keeps the low `TreeDepth` bits of
  the index.  `is_lsb_set`/`shr` consume bits least-significant-first, so
  iteration `i` of a bottom-up fold sees `idx.testBit i`;
  `is_msb_set`/`shl` consume the `TreeDepth`-bit window
  most-significant-first, so iteration `i` of a top-down walk sees
  `idx.testBit (TreeDepth - 1 - i)`.  We therefore model an index as a
  natural number and read its bits directly.
* Rust panics (`unwrap` on a missing store entry, out-of-bounds slice
  indexing) are modelled by `Option`: a result of `none` means the Rust
  code panics.
-/

set_option linter.unusedSectionVars false
set_option linter.unusedVariables false

/-- `pub const TreeDepth: usize = 32;` -/
def TreeDepth : Nat := 32

/-- The tree structure of the source:
`depth`, `empty_tree_hashes`, `db`, `root` (hash parameters are threaded
separately as the abstract `hash`). -/
structure VanillaSparseMerkleTree (F : Type) where
  depth : Nat
  empty_tree_hashes : List F
  db : F → Option (F × F)
  root : F

section TreeModel

variable {F : Type} [DecidableEq F]

/-- The construction loop of `VanillaSparseMerkleTree::new`: starting from
`empty_tree_hashes = [0]` and an empty store, iteration `i` (for
`i in 1..=depth`) reads the previous entry `prev`, computes
`new = hash prev prev`, inserts `(prev, prev)` under key `new` and pushes
`new`.  Returns (last pushed hash, the table, the store). -/
def buildDefaults [Zero F] (hash : F → F → F) : Nat → F × List F × (F → Option (F × F))
  | 0 => (0, [0], fun _ => none)
  | i + 1 =>
    let st := buildDefaults hash i
    let nw := hash st.1 st.1
    (nw, st.2.1 ++ [nw], Function.update st.2.2 nw (some (st.1, st.1)))

/-- `VanillaSparseMerkleTree::new`: seed the default table and store, with
`root = empty_tree_hashes[depth]` and `depth = TreeDepth`. -/
def VanillaSparseMerkleTree.new [Zero F] (hash : F → F → F) :
    VanillaSparseMerkleTree F :=
  let st := buildDefaults hash TreeDepth
  ⟨TreeDepth, st.2.1, st.2.2, st.1⟩

/-- The most-significant-first bit sequence consumed by `get`:
iteration `i` of its loop tests the MSB of the shifted `TreeDepth`-bit
window, i.e. bit `d - 1 - i` of the index. -/
def msbBits (d idx : Nat) : List Bool :=
  (List.range d).map fun i => idx.testBit (d - 1 - i)

/-- The least-significant-first bit sequence consumed by `update` and
`verify_proof`: iteration `i` tests bit `i` of the index. -/
def lsbBits (d idx : Nat) : List Bool :=
  (List.range d).map fun i => idx.testBit i

/-- The loop of `get`: walk from the current node along the given
(most-significant-first) bits; at each level look up the current digest's
child pair in the store (`unwrap`: a miss is `none`, i.e. a panic), move
to the child selected by the bit, and record the *other* child as the
proof sibling, producing siblings in root-first order.  Returns the leaf
digest reached and the sibling list. -/
def getLoop (db : F → Option (F × F)) : List Bool → F → Option (F × List F)
  | [], cur => some (cur, [])
  | b :: bs, cur =>
    match db cur with
    | none => none
    | some lr =>
      (getLoop db bs (if b then lr.2 else lr.1)).map
        fun res => (res.1, (if b then lr.1 else lr.2) :: res.2)

/-- `VanillaSparseMerkleTree::get` (the returned value together with the
proof vector that is populated when a proof is requested; when no proof is
requested the source runs the same loop and merely discards the
siblings). -/
def VanillaSparseMerkleTree.get (t : VanillaSparseMerkleTree F) (idx : Nat) :
    Option (F × List F) :=
  getLoop t.db (msbBits t.depth idx) t.root

/-- The bottom-up fold of `update`: iteration `i` pops the *last*
unconsumed sidenode (so the list argument here is the leaf-first reversal
of the root-first `get` output), hashes the running value with it on the
side selected by the current low bit, and inserts the resulting pair into
the store under the new digest (`update_db_with_key_val`, i.e.
`HashMap::insert`).  Returns the final running value (the new root) and
the updated store. -/
def updLoop (hash : F → F → F) :
    List Bool → List F → F → (F → Option (F × F)) → F × (F → Option (F × F))
  | [], _, cur, db => (cur, db)
  | _ :: _, [], cur, db => (cur, db)
  | b :: bs, s :: ss, cur, db =>
    let h := if b then hash s cur else hash cur s
    let pr : F × F := if b then (s, cur) else (cur, s)
    updLoop hash bs ss h (Function.update db h (some pr))

/-- `VanillaSparseMerkleTree::update`: obtain the root-first sidenode
sequence via `get` (a store miss there panics, hence `Option`), fold
bottom-up consuming the sidenodes from the end (`sidenodes.pop()`, i.e.
the reversed list from the front) and the index bits
least-significant-first, then replace the root. -/
def VanillaSparseMerkleTree.update (hash : F → F → F)
    (t : VanillaSparseMerkleTree F) (idx : Nat) (val : F) :
    Option (VanillaSparseMerkleTree F) :=
  (t.get idx).map fun res =>
    let fin := updLoop hash (lsbBits t.depth idx) res.2.reverse val t.db
    ⟨t.depth, t.empty_tree_hashes, fin.2, fin.1⟩

/-- The loop of `verify_proof`, iterated over the loop counters `is`
(in the source, `for i in 0..self.depth`): iteration `i` reads
`proof[d - 1 - i]` (out-of-bounds indexing is `none`, i.e. a panic) and
hashes it with the running value on the side selected by bit `i` of the
index. -/
def verifyLoop (hash : F → F → F) (idx : Nat) (prf : List F) (d : Nat) :
    List Nat → F → Option F
  | [], cur => some cur
  | i :: is, cur =>
    match prf.get? (d - 1 - i) with
    | none => none
    | some s => verifyLoop hash idx prf d is (if idx.testBit i then hash s cur else hash cur s)

/-- `VanillaSparseMerkleTree::verify_proof`: recompute the root by the
bottom-up fold from the supplied proof slice and compare it with the
override root if given, else with the tree's current root.  `none` models
the panic on an under-length proof slice. -/
def VanillaSparseMerkleTree.verify_proof (hash : F → F → F)
    (t : VanillaSparseMerkleTree F) (idx : Nat) (val : F) (prf : List F)
    (root? : Option F) : Option Bool :=
  (verifyLoop hash idx prf t.depth (List.range t.depth) val).map fun cur =>
    match root? with
    | some r => decide (cur = r)
    | none => decide (cur = t.root)

/-- The digests visited while walking from the root along `idx`'s path
(root first, leaf last); used to express "a later update touches `idx`'s
path". -/
def pathLoop (db : F → Option (F × F)) : List Bool → F → Option (List F)
  | [], cur => some [cur]
  | b :: bs, cur =>
    match db cur with
    | none => none
    | some lr => (pathLoop db bs (if b then lr.2 else lr.1)).map (cur :: ·)

/-- The digests on `idx`'s path in tree `t`, root first. -/
def VanillaSparseMerkleTree.pathDigests (t : VanillaSparseMerkleTree F)
    (idx : Nat) : Option (List F) :=
  pathLoop t.db (msbBits t.depth idx) t.root

/-- Run a sequence of `update` operations (index, value) left to right;
`none` if any of them panics. -/
def applyOps (hash : F → F → F) (t : VanillaSparseMerkleTree F) :
    List (Nat × F) → Option (VanillaSparseMerkleTree F)
  | [] => some t
  | p :: rest =>
    match VanillaSparseMerkleTree.update hash t p.1 p.2 with
    | none => none
    | some t' => applyOps hash t' rest

/-- The value written by the most recent operation in `ops` whose index
equals `idx` (later operations override earlier ones). -/
def lastVal : List (Nat × F) → Nat → Option F
  | [], _ => none
  | p :: rest, idx =>
    match lastVal rest idx with
    | some v => some v
    | none => if p.1 = idx then some p.2 else none

end TreeModel

/-! ## Abstract Merkle semantics

The semantic reference point for the tree operations: a depth-`d` subtree
is determined by its leaf assignment `f : Nat → F` (only indices below
`2 ^ d` matter), and `rootOf hash f d` is its Merkle digest.  The store
invariant `treeOk` says the store holds the child pair of every internal
node of that tree. -/

section Semantics

variable {F : Type} [DecidableEq F]

/-- Digest of the depth-`d` subtree with leaves `f` (leaf `j` sits at path
`j` read least-significant-bit-at-the-leaf; the left child covers indices
with bit `d - 1` clear, i.e. `j < 2 ^ (d-1)`). -/
def rootOf (hash : F → F → F) (f : Nat → F) : Nat → F
  | 0 => f 0
  | d + 1 => hash (rootOf hash f d) (rootOf hash (fun j => f (j + 2 ^ d)) d)

/-- Root-first sibling sequence of the path to leaf `idx` in the depth-`d`
tree with leaves `f`. -/
def sibsOf (hash : F → F → F) (f : Nat → F) (idx : Nat) : Nat → List F
  | 0 => []
  | d + 1 =>
    if idx.testBit d then
      rootOf hash f d :: sibsOf hash (fun j => f (j + 2 ^ d)) idx d
    else
      rootOf hash (fun j => f (j + 2 ^ d)) d :: sibsOf hash f idx d

/-- Every internal node of the depth-`d` tree with leaves `f` is present
in the store with exactly its child pair. -/
def treeOk (hash : F → F → F) (db : F → Option (F × F)) (f : Nat → F) : Nat → Prop
  | 0 => True
  | d + 1 =>
    db (rootOf hash f (d + 1)) =
        some (rootOf hash f d, rootOf hash (fun j => f (j + 2 ^ d)) d) ∧
    treeOk hash db f d ∧ treeOk hash db (fun j => f (j + 2 ^ d)) d

/-- Every store entry is keyed by the hash of its pair (true by
construction: all inserts use `hash l r` as the key). -/
def dbConsistent (hash : F → F → F) (db : F → Option (F × F)) : Prop :=
  ∀ h a b, db h = some (a, b) → hash a b = h

/-- The hash is injective as a function of the ordered pair; the
collision-resistance idealisation under which the data-structure
correctness statements hold. -/
def pairInj (hash : F → F → F) : Prop :=
  ∀ a b c d, hash a b = hash c d → a = c ∧ b = d

/-- Point update of a leaf assignment at `idx` (reduced to the `d`-bit
index window). -/
def writeLeaf (d idx : Nat) (val : F) (f : Nat → F) : Nat → F :=
  fun j => if j = idx % 2 ^ d then val else f j

/-- Leaf assignment after a sequence of writes. -/
def writeList (d : Nat) (f : Nat → F) (ops : List (Nat × F)) : Nat → F :=
  ops.foldl (fun g p => writeLeaf d p.1 p.2 g) f

/-- The plain bottom-up fold shared by `update` and `verify_proof`:
consume bits least-significant-first and siblings leaf-first; a set bit
puts the running value on the right of the hash. -/
def foldPath (hash : F → F → F) : List Bool → List F → F → F
  | [], _, cur => cur
  | _ :: _, [], cur => cur
  | b :: bs, s :: ss, cur => foldPath hash bs ss (if b then hash s cur else hash cur s)

/-- `d`-fold self-hashing of the canonical empty-leaf value `0`; the
spec's description of the default table entry at level `d`. -/
def defaultHashChain [Zero F] (hash : F → F → F) : Nat → F
  | 0 => 0
  | d + 1 => hash (defaultHashChain hash d) (defaultHashChain hash d)

/-- The state invariant tying a tree to its abstract leaf assignment. -/
def TreeInv (hash : F → F → F) (t : VanillaSparseMerkleTree F) (f : Nat → F) : Prop :=
  dbConsistent hash t.db ∧ t.root = rootOf hash f t.depth ∧ treeOk hash t.db f t.depth

end Semantics


/-! ## The constraint-system model

Modelled from the spec: the gadget consumes the proving engine (an
external crate) only through a narrow capability interface —
allocate-and-multiply (two linear combinations in, three wires out) and
constrain-linear-combination-equal-to-public-scalar — and consumes the
hash's circuit form (`Poseidon_hash_2_constraints`, outside `src/`) as a
black box that turns two input linear combinations into an output linear
combination representing their two-to-one hash.  Variables are numbered
by allocation order; the prover-side assignment is maintained by the
state.  A recorded multiplication gate `(l, r, o)` is satisfied by an
assignment `a` when `l.eval a * r.eval a = a o`; a recorded hash gate
`(l, r, o)` when `a o = hash (l.eval a) (r.eval a)`; a recorded linear
constraint `(lc, c)` when `lc.eval a = c`. -/

/-- A linear combination of circuit variables: weighted variable terms
plus a constant (the `Variable::One()` component). -/
structure LinearCombination (F : Type) where
  terms : List (Nat × F)
  const : F

section GadgetModel

variable {F : Type} [CommRing F]

/-- Value of a linear combination under an assignment. -/
def LinearCombination.eval (a : Nat → F) (lc : LinearCombination F) : F :=
  lc.terms.foldl (fun acc t => acc + t.2 * a t.1) lc.const

/-- The linear combination of a single variable. -/
def LCofVar (v : Nat) : LinearCombination F := ⟨[(v, 1)], 0⟩

/-- Sum of two linear combinations. -/
def LCadd (l1 l2 : LinearCombination F) : LinearCombination F :=
  ⟨l1.terms ++ l2.terms, l1.const + l2.const⟩

/-- `Variable::One() - v`, the `one_minus_leaf_side` combination. -/
def LConeMinus (v : Nat) : LinearCombination F := ⟨[(v, -1)], 1⟩

/-- All variables of a linear combination are below `n`. -/
def LinearCombination.varsLt (lc : LinearCombination F) (n : Nat) : Prop :=
  ∀ t ∈ lc.terms, t.1 < n

/-- Constraint-system state: allocation counter, prover assignment,
recorded multiplication gates `(left lc, right lc, output var)`, recorded
opaque hash gates, and linear `lc = scalar` constraints. -/
structure R1CSState (F : Type) where
  nVars : Nat
  assignment : Nat → F
  muls : List (LinearCombination F × LinearCombination F × Nat)
  hashGates : List (LinearCombination F × LinearCombination F × Nat)
  constraints : List (LinearCombination F × F)

/-- Modelled from the spec: `cs.multiply(l, r)` — allocate the three wires
of a multiplication gate, assign them the evaluations of the inputs and
their product, and record the gate. -/
def R1CSState.multiply (s : R1CSState F) (l r : LinearCombination F) :
    (Nat × Nat × Nat) × R1CSState F :=
  ((s.nVars, s.nVars + 1, s.nVars + 2),
   { nVars := s.nVars + 3
     assignment := fun i =>
       if i = s.nVars then l.eval s.assignment
       else if i = s.nVars + 1 then r.eval s.assignment
       else if i = s.nVars + 2 then l.eval s.assignment * r.eval s.assignment
       else s.assignment i
     muls := s.muls ++ [(l, r, s.nVars + 2)]
     hashGates := s.hashGates
     constraints := s.constraints })

/-- Modelled from the spec: the circuit form of the hash oracle
(`Poseidon_hash_2_constraints`, outside `src/`): given the constraint
system, two input linear combinations and the pre-allocated statics, emit
its own gate schedule (abstracted as one opaque hash gate), assign the
output wire the two-to-one hash of the input values, and return the
output as a linear combination. -/
def Poseidon_hash_2_constraints (hash : F → F → F) (s : R1CSState F)
    (l r : LinearCombination F) (statics : List (LinearCombination F)) :
    LinearCombination F × R1CSState F :=
  (LCofVar s.nVars,
   { nVars := s.nVars + 1
     assignment := fun i =>
       if i = s.nVars then hash (l.eval s.assignment) (r.eval s.assignment)
       else s.assignment i
     muls := s.muls
     hashGates := s.hashGates ++ [(l, r, s.nVars)]
     constraints := s.constraints })

/-- `constrain_lc_with_scalar` (from `r1cs_utils`, outside `src/`;
modelled from the spec): record the linear-combination-equals-constant
constraint `lc = c`. -/
def constrain_lc_with_scalar (s : R1CSState F) (lc : LinearCombination F)
    (c : F) : R1CSState F :=
  { s with constraints := s.constraints ++ [(lc, c)] }

/-- The loop body of `vanilla_merkle_merkle_tree_verif_gadget`, iterated
over the zipped `(leaf_index_bits[i], proof_nodes[i])` variables, with `p`
the running linear combination (`leaf_val` at the first iteration —
`if i == 0` in the source — and the previous hash output afterwards):

`left  = (1 - bit) * p + bit * sibling`  (two multiplication gates)
`right = bit * p + (1 - bit) * sibling`  (two multiplication gates)
`p'    = Poseidon_hash_2_constraints(left, right)`. -/
def gadgetLoop (hash : F → F → F) (statics : List (LinearCombination F)) :
    List (Nat × Nat) → LinearCombination F → R1CSState F →
      LinearCombination F × R1CSState F
  | [], p, s => (p, s)
  | bp :: rest, p, s =>
    let m1 := s.multiply (LConeMinus bp.1) p
    let m2 := m1.2.multiply (LCofVar bp.1) (LCofVar bp.2)
    let left := LCadd (LCofVar m1.1.2.2) (LCofVar m2.1.2.2)
    let m3 := m2.2.multiply (LCofVar bp.1) p
    let m4 := m3.2.multiply (LConeMinus bp.1) (LCofVar bp.2)
    let right := LCadd (LCofVar m3.1.2.2) (LCofVar m4.1.2.2)
    let ph := Poseidon_hash_2_constraints hash m4.2 left right statics
    gadgetLoop hash statics rest ph.1 ph.2

/-- `vanilla_merkle_merkle_tree_verif_gadget`: run the per-level selection
and hash fold for `depth` levels over the committed bit and sibling
variables (out-of-bounds indexing of either input vector is a panic,
modelled as `none`), then constrain the final folded linear combination to
equal the public root scalar. -/
def vanilla_merkle_merkle_tree_verif_gadget (hash : F → F → F)
    (s : R1CSState F) (depth : Nat) (root : F) (leaf_val : Nat)
    (leaf_index_bits proof_nodes : List Nat)
    (statics : List (LinearCombination F)) : Option (R1CSState F) :=
  if depth ≤ leaf_index_bits.length ∧ depth ≤ proof_nodes.length then
    some
      (let fin := gadgetLoop hash statics
          ((leaf_index_bits.take depth).zip (proof_nodes.take depth))
          (LCofVar leaf_val) s
       constrain_lc_with_scalar fin.2 fin.1 root)
  else none

/-- The elementwise semantics of one gadget level on concrete values
`(bit, sibling)`: the claims' description of the per-level selection. -/
def gadgetFold (hash : F → F → F) : List (F × F) → F → F
  | [], v => v
  | bp :: rest, v =>
    gadgetFold hash rest
      (hash ((1 - bp.1) * v + bp.1 * bp.2) (bp.1 * v + (1 - bp.1) * bp.2))

/-- The exact gate schedule the gadget emits per level, starting from
allocation counter `n` with running combination `p`: four multiplication
gates (output wires `n+2`, `n+5`, `n+8`, `n+11`) whose inputs are the
four product terms of the selection, and one hash gate (output wire
`n+12`) fed the sums `left`/`right` of the product wires. -/
def gadgetTrace : List (Nat × Nat) → LinearCombination F → Nat →
    List (LinearCombination F × LinearCombination F × Nat) ×
      List (LinearCombination F × LinearCombination F × Nat)
  | [], _, _ => ([], [])
  | bp :: rest, p, n =>
    ((LConeMinus bp.1, p, n + 2) ::
       (LCofVar bp.1, LCofVar bp.2, n + 5) ::
       (LCofVar bp.1, p, n + 8) ::
       (LConeMinus bp.1, LCofVar bp.2, n + 11) ::
       (gadgetTrace rest (LCofVar (n + 12)) (n + 13)).1,
     (LCadd (LCofVar (n + 2)) (LCofVar (n + 5)),
       LCadd (LCofVar (n + 8)) (LCofVar (n + 11)), n + 12) ::
       (gadgetTrace rest (LCofVar (n + 12)) (n + 13)).2)

/-- The scalar `0`/`1` value of bit `i` of the index, as committed for the
gadget's selector-bit variables (leaf-to-root order: bit `i` is the
selector of fold level `i`). -/
def bitVal (idx i : Nat) : F := if idx.testBit i then 1 else 0

/-- The committed-variable layout used to run the gadget on the concrete
assignments corresponding to a `verify_proof` invocation: variable `0` is
the leaf value, variables `1..d` the `d` index bits in leaf-to-root
order, variables `d+1..d+qs.length` the siblings in leaf-to-root order
(`qs`). -/
def merkleGadgetInputs (d idx : Nat) (val : F) (qs : List F) : R1CSState F :=
  { nVars := 1 + d + qs.length
    assignment := fun v =>
      if v = 0 then val
      else if v < 1 + d then bitVal idx (v - 1)
      else if v - (1 + d) < qs.length then qs.getD (v - (1 + d)) 0
      else 0
    muls := []
    hashGates := []
    constraints := [] }

/-- The variable ids of the selector bits in `merkleGadgetInputs`. -/
def bitVars (d : Nat) : List Nat := (List.range d).map fun i => 1 + i

/-- The variable ids of the siblings in `merkleGadgetInputs`. -/
def sibVars (d : Nat) : List Nat := (List.range d).map fun i => 1 + d + i

end GadgetModel

/-! ## Basic helper lemmas -/

section Helpers

variable {F : Type} [DecidableEq F]

theorem two_pow_succ (d : Nat) : 2 ^ (d + 1) = 2 ^ d + 2 ^ d := by ring

theorem msbBits_succ (d idx : Nat) :
    msbBits (d + 1) idx = idx.testBit d :: msbBits d idx := by
  unfold msbBits
  rw [List.range_succ_eq_map, List.map_cons, List.map_map]
  congr 1
  apply List.map_congr_left
  intro i _
  simp only [Function.comp_apply]
  congr 1
  omega

theorem lsbBits_concat (d idx : Nat) :
    lsbBits (d + 1) idx = lsbBits d idx ++ [idx.testBit d] := by
  unfold lsbBits
  rw [List.range_succ, List.map_append, List.map_singleton]

theorem lsbBits_cons (d idx : Nat) :
    lsbBits (d + 1) idx = idx.testBit 0 :: lsbBits d (idx / 2) := by
  unfold lsbBits
  rw [List.range_succ_eq_map, List.map_cons, List.map_map]
  congr 1
  apply List.map_congr_left
  intro i _
  simp only [Function.comp_apply]
  exact Nat.testBit_succ idx i

theorem lsbBits_length (d idx : Nat) : (lsbBits d idx).length = d := by
  simp [lsbBits]

theorem sibsOf_length (hash : F → F → F) (idx : Nat) :
    ∀ d f, (sibsOf hash f idx d).length = d := by
  intro d
  induction d with
  | zero => intro f; rfl
  | succ d ih =>
    intro f
    unfold sibsOf
    split <;> simp [ih]

theorem mod_pow_succ_true {idx d : Nat} (h : idx.testBit d = true) :
    idx % 2 ^ (d + 1) = idx % 2 ^ d + 2 ^ d := by
  have hb : idx / 2 ^ d % 2 = 1 := by
    have := Nat.testBit_to_div_mod (x := idx) (i := d)
    rw [h] at this
    exact (decide_eq_true_eq.mp this.symm)
  rw [pow_succ, Nat.mod_mul, hb]
  ring

theorem mod_pow_succ_false {idx d : Nat} (h : idx.testBit d = false) :
    idx % 2 ^ (d + 1) = idx % 2 ^ d := by
  have hb : idx / 2 ^ d % 2 = 0 := by
    have := Nat.testBit_to_div_mod (x := idx) (i := d)
    rw [h] at this
    rcases Nat.mod_two_eq_zero_or_one (idx / 2 ^ d) with h0 | h1
    · exact h0
    · rw [h1] at this
      simp at this
  rw [pow_succ, Nat.mod_mul, hb]
  ring

theorem rootOf_congr (hash : F → F → F) :
    ∀ d (f g : Nat → F), (∀ j < 2 ^ d, f j = g j) →
      rootOf hash f d = rootOf hash g d := by
  intro d
  induction d with
  | zero => intro f g h; exact h 0 (by norm_num)
  | succ d ih =>
    intro f g h
    unfold rootOf
    have hle : 2 ^ d ≤ 2 ^ (d + 1) :=
      Nat.pow_le_pow_right (by norm_num) (Nat.le_succ d)
    congr 1
    · exact ih f g fun j hj => h j (lt_of_lt_of_le hj hle)
    · exact ih _ _ fun j hj => h (j + 2 ^ d) (by rw [two_pow_succ]; exact Nat.add_lt_add_right hj _)

theorem treeOk_congr (hash : F → F → F) (db : F → Option (F × F)) :
    ∀ d (f g : Nat → F), (∀ j < 2 ^ d, f j = g j) →
      treeOk hash db f d → treeOk hash db g d := by
  intro d
  induction d with
  | zero => intro f g _ _; trivial
  | succ d ih =>
    intro f g h hok
    have hle : 2 ^ d ≤ 2 ^ (d + 1) :=
      Nat.pow_le_pow_right (by norm_num) (Nat.le_succ d)
    have hL : ∀ j < 2 ^ d, f j = g j := fun j hj => h j (lt_of_lt_of_le hj hle)
    have hR : ∀ j < 2 ^ d, f (j + 2 ^ d) = g (j + 2 ^ d) := fun j hj =>
      h (j + 2 ^ d) (by rw [two_pow_succ]; exact Nat.add_lt_add_right hj _)
    obtain ⟨h1, h2, h3⟩ := hok
    refine ⟨?_, ih f g hL h2, ih _ _ hR h3⟩
    rw [← rootOf_congr hash (d + 1) f g h, ← rootOf_congr hash d f g hL,
      ← rootOf_congr hash d _ _ hR]
    exact h1

theorem foldPath_append (hash : F → F → F) :
    ∀ (bs : List Bool) (ss : List F) (b : Bool) (s : F) (cur : F),
      bs.length = ss.length →
      foldPath hash (bs ++ [b]) (ss ++ [s]) cur =
        (if b then hash s (foldPath hash bs ss cur)
         else hash (foldPath hash bs ss cur) s) := by
  intro bs
  induction bs with
  | nil =>
    intro ss b s cur hlen
    have : ss = [] := List.eq_nil_of_length_eq_zero hlen.symm
    subst this
    rfl
  | cons b0 bs ih =>
    intro ss b s cur hlen
    cases ss with
    | nil => simp at hlen
    | cons s0 ss =>
      simp only [List.cons_append, foldPath]
      exact ih ss b s _ (by simpa using hlen)

theorem updLoop_append (hash : F → F → F) :
    ∀ (bs : List Bool) (ss : List F) (b : Bool) (s : F) (cur : F)
      (db : F → Option (F × F)),
      bs.length = ss.length →
      updLoop hash (bs ++ [b]) (ss ++ [s]) cur db =
        ((if b then hash s (updLoop hash bs ss cur db).1
          else hash (updLoop hash bs ss cur db).1 s),
         Function.update (updLoop hash bs ss cur db).2
           (if b then hash s (updLoop hash bs ss cur db).1
            else hash (updLoop hash bs ss cur db).1 s)
           (some (if b then (s, (updLoop hash bs ss cur db).1)
                  else ((updLoop hash bs ss cur db).1, s)))) := by
  intro bs
  induction bs with
  | nil =>
    intro ss b s cur db hlen
    have : ss = [] := List.eq_nil_of_length_eq_zero hlen.symm
    subst this
    rfl
  | cons b0 bs ih =>
    intro ss b s cur db hlen
    cases ss with
    | nil => simp at hlen
    | cons s0 ss =>
      simp only [List.cons_append, updLoop]
      exact ih ss b s _ _ (by simpa using hlen)

end Helpers

/-! ## Store lemmas -/

section StoreLemmas

variable {F : Type} [DecidableEq F]

theorem dbConsistent_insert {hash : F → F → F} {db : F → Option (F × F)}
    (hcons : dbConsistent hash db) (a b : F) :
    dbConsistent hash (Function.update db (hash a b) (some (a, b))) := by
  intro h x y hxy
  by_cases he : h = hash a b
  · subst he
    rw [Function.update_same] at hxy
    obtain ⟨rfl, rfl⟩ : a = x ∧ b = y := by
      have := hxy
      simp at this
      exact this
    rfl
  · rw [Function.update_noteq he] at hxy
    exact hcons _ _ _ hxy

theorem update_keep {hash : F → F → F} {db : F → Option (F × F)}
    (hinj : pairInj hash) (hcons : dbConsistent hash db) (a b : F) {h : F}
    {v : F × F} (hv : db h = some v) :
    Function.update db (hash a b) (some (a, b)) h = some v := by
  by_cases he : h = hash a b
  · subst he
    rw [Function.update_same]
    obtain ⟨x, y⟩ := v
    obtain ⟨rfl, rfl⟩ := hinj x y a b (by rw [hcons _ _ _ hv])
    rfl
  · rw [Function.update_noteq he]
    exact hv

theorem treeOk_mono {hash : F → F → F} {db db' : F → Option (F × F)}
    (hsub : ∀ h v, db h = some v → db' h = some v) :
    ∀ d (f : Nat → F), treeOk hash db f d → treeOk hash db' f d := by
  intro d
  induction d with
  | zero => intro f _; trivial
  | succ d ih =>
    intro f hok
    exact ⟨hsub _ _ hok.1, ih f hok.2.1, ih _ hok.2.2⟩

theorem updLoop_consistent (hash : F → F → F) :
    ∀ (bs : List Bool) (ss : List F) (cur : F) (db : F → Option (F × F)),
      dbConsistent hash db → dbConsistent hash (updLoop hash bs ss cur db).2 := by
  intro bs
  induction bs with
  | nil => intro ss cur db hc; exact hc
  | cons b bs ih =>
    intro ss cur db hc
    cases ss with
    | nil => exact hc
    | cons s ss =>
      cases b
      · exact ih ss _ _ (dbConsistent_insert hc cur s)
      · exact ih ss _ _ (dbConsistent_insert hc s cur)

theorem updLoop_keep {hash : F → F → F} (hinj : pairInj hash) :
    ∀ (bs : List Bool) (ss : List F) (cur : F) (db : F → Option (F × F)),
      dbConsistent hash db →
      ∀ h v, db h = some v → (updLoop hash bs ss cur db).2 h = some v := by
  intro bs
  induction bs with
  | nil => intro ss cur db _ h v hv; exact hv
  | cons b bs ih =>
    intro ss cur db hc h v hv
    cases ss with
    | nil => exact hv
    | cons s ss =>
      cases b
      · exact ih ss _ _ (dbConsistent_insert hc cur s) h v
          (update_keep hinj hc cur s hv)
      · exact ih ss _ _ (dbConsistent_insert hc s cur) h v
          (update_keep hinj hc s cur hv)

theorem updLoop_fst (hash : F → F → F) :
    ∀ (bs : List Bool) (ss : List F) (cur : F) (db : F → Option (F × F)),
      (updLoop hash bs ss cur db).1 = foldPath hash bs ss cur := by
  intro bs
  induction bs with
  | nil => intro ss cur db; rfl
  | cons b bs ih =>
    intro ss cur db
    cases ss with
    | nil => rfl
    | cons s ss => exact ih ss _ _

theorem sibsOf_succ (hash : F → F → F) (f : Nat → F) (idx d : Nat) :
    sibsOf hash f idx (d + 1) =
      if idx.testBit d then
        rootOf hash f d :: sibsOf hash (fun j => f (j + 2 ^ d)) idx d
      else
        rootOf hash (fun j => f (j + 2 ^ d)) d :: sibsOf hash f idx d := rfl

/-- Walking the tree from the root of an abstract leaf assignment whose
internal nodes are all present in the store yields the leaf value at the
(reduced) index and the root-first sibling sequence of that path. -/
theorem getLoop_spec (hash : F → F → F) :
    ∀ (d : Nat) (f : Nat → F) (idx : Nat) (db : F → Option (F × F)),
      treeOk hash db f d →
      getLoop db (msbBits d idx) (rootOf hash f d) =
        some (f (idx % 2 ^ d), sibsOf hash f idx d) := by
  intro d
  induction d with
  | zero =>
    intro f idx db _
    simp [msbBits, getLoop, rootOf, sibsOf, Nat.mod_one]
  | succ d ih =>
    intro f idx db hok
    obtain ⟨h1, h2, h3⟩ := hok
    rw [msbBits_succ]
    cases hb : idx.testBit d
    · simp only [getLoop, h1, Bool.false_eq_true, if_false]
      rw [ih f idx db h2]
      simp only [Option.map_some']
      rw [sibsOf_succ, hb, mod_pow_succ_false hb]
      simp
    · simp only [getLoop, h1, if_true]
      rw [ih _ idx db h3]
      simp only [Option.map_some']
      rw [sibsOf_succ, hb, mod_pow_succ_true hb]
      simp

theorem rootOf_succ (hash : F → F → F) (f : Nat → F) (d : Nat) :
    rootOf hash f (d + 1) =
      hash (rootOf hash f d) (rootOf hash (fun j => f (j + 2 ^ d)) d) := rfl

theorem writeLeaf_left_high {d idx : Nat} (hb : idx.testBit d = true) (val : F)
    (f : Nat → F) : ∀ j < 2 ^ d, writeLeaf (d + 1) idx val f j = f j := by
  intro j hj
  unfold writeLeaf
  rw [mod_pow_succ_true hb]
  have hne : j ≠ idx % 2 ^ d + 2 ^ d := by omega
  simp [hne]

theorem writeLeaf_right_true {d idx : Nat} (hb : idx.testBit d = true) (val : F)
    (f : Nat → F) :
    (fun j => writeLeaf (d + 1) idx val f (j + 2 ^ d)) =
      writeLeaf d idx val (fun j => f (j + 2 ^ d)) := by
  funext j
  unfold writeLeaf
  rw [mod_pow_succ_true hb]
  by_cases h : j = idx % 2 ^ d
  · simp [h]
  · have h2 : j + 2 ^ d ≠ idx % 2 ^ d + 2 ^ d := by omega
    simp [h, h2]

theorem writeLeaf_left_false {d idx : Nat} (hb : idx.testBit d = false) (val : F)
    (f : Nat → F) :
    writeLeaf (d + 1) idx val f = writeLeaf d idx val f := by
  funext j
  unfold writeLeaf
  rw [mod_pow_succ_false hb]

theorem writeLeaf_high (d idx : Nat) (val : F) (f : Nat → F) :
    (fun j => writeLeaf d idx val f (j + 2 ^ d)) = fun j => f (j + 2 ^ d) := by
  funext j
  unfold writeLeaf
  have hlt : idx % 2 ^ d < 2 ^ d := Nat.mod_lt _ (by positivity)
  have hne : j + 2 ^ d ≠ idx % 2 ^ d := by omega
  simp [hne]

/-- The bottom-up fold over the reversed (leaf-first) sibling sequence of
a path computes exactly the root of the tree with that leaf replaced. -/
theorem foldPath_sibs (hash : F → F → F) :
    ∀ (d : Nat) (f : Nat → F) (idx : Nat) (val : F),
      foldPath hash (lsbBits d idx) ((sibsOf hash f idx d).reverse) val =
        rootOf hash (writeLeaf d idx val f) d := by
  intro d
  induction d with
  | zero =>
    intro f idx val
    simp [lsbBits, sibsOf, foldPath, rootOf, writeLeaf, Nat.mod_one]
  | succ d ih =>
    intro f idx val
    rw [lsbBits_concat]
    cases hb : idx.testBit d
    · rw [sibsOf_succ, hb]
      simp only [Bool.false_eq_true, if_false, List.reverse_cons]
      rw [foldPath_append _ _ _ _ _ _
        (by rw [lsbBits_length, List.length_reverse, sibsOf_length])]
      simp only [Bool.false_eq_true, if_false]
      rw [ih f idx val, rootOf_succ, writeLeaf_left_false hb, writeLeaf_high]
    · rw [sibsOf_succ, hb]
      simp only [if_true, List.reverse_cons]
      rw [foldPath_append _ _ _ _ _ _
        (by rw [lsbBits_length, List.length_reverse, sibsOf_length])]
      simp only [if_true]
      rw [ih _ idx val, rootOf_succ, writeLeaf_right_true hb]
      have hL := rootOf_congr hash d (writeLeaf (d + 1) idx val f) f
        (writeLeaf_left_high hb val f)
      rw [hL]

/-- Folding an update of leaf `idx` to `val` into the store yields a store
holding every internal node of the updated abstract tree, while keeping
all nodes of the previous tree. -/
theorem updLoop_treeOk {hash : F → F → F} (hinj : pairInj hash) :
    ∀ (d : Nat) (f : Nat → F) (idx : Nat) (val : F) (db : F → Option (F × F)),
      dbConsistent hash db → treeOk hash db f d →
      treeOk hash
        (updLoop hash (lsbBits d idx) ((sibsOf hash f idx d).reverse) val db).2
        (writeLeaf d idx val f) d := by
  intro d
  induction d with
  | zero => intro f idx val db _ _; trivial
  | succ d ih =>
    intro f idx val db hc hok
    obtain ⟨h1, h2, h3⟩ := hok
    rw [lsbBits_concat]
    cases hb : idx.testBit d
    · rw [sibsOf_succ, hb]
      simp only [Bool.false_eq_true, if_false, List.reverse_cons]
      rw [updLoop_append _ _ _ _ _ _ _
        (by rw [lsbBits_length, List.length_reverse, sibsOf_length])]
      simp only [Bool.false_eq_true, if_false]
      have hm1 : (updLoop hash (lsbBits d idx) ((sibsOf hash f idx d).reverse) val db).1 =
          rootOf hash (writeLeaf d idx val f) d := by
        rw [updLoop_fst, foldPath_sibs]
      have hmc : dbConsistent hash
          (updLoop hash (lsbBits d idx) ((sibsOf hash f idx d).reverse) val db).2 :=
        updLoop_consistent hash _ _ _ _ hc
      have hkeep : ∀ h v, db h = some v →
          (updLoop hash (lsbBits d idx) ((sibsOf hash f idx d).reverse) val db).2 h = some v :=
        updLoop_keep hinj _ _ _ _ hc
      have hsub := ih f idx val db hc h2
      rw [writeLeaf_left_false hb]
      refine ⟨?_, ?_, ?_⟩
      · have hroot : rootOf hash (writeLeaf d idx val f) (d + 1) =
            hash (updLoop hash (lsbBits d idx) ((sibsOf hash f idx d).reverse) val db).1
              (rootOf hash (fun j => f (j + 2 ^ d)) d) := by
          rw [rootOf_succ, writeLeaf_high, hm1]
        rw [hroot, Function.update_same, writeLeaf_high, hm1]
      · exact treeOk_mono
          (fun h v hv => update_keep hinj hmc _ _ hv) d _ hsub
      · rw [writeLeaf_high]
        exact treeOk_mono
          (fun h v hv => update_keep hinj hmc _ _ (hkeep h v hv)) d _ h3
    · rw [sibsOf_succ, hb]
      simp only [if_true, List.reverse_cons]
      rw [updLoop_append _ _ _ _ _ _ _
        (by rw [lsbBits_length, List.length_reverse, sibsOf_length])]
      simp only [if_true]
      have hm1 : (updLoop hash (lsbBits d idx)
            ((sibsOf hash (fun j => f (j + 2 ^ d)) idx d).reverse) val db).1 =
          rootOf hash (writeLeaf d idx val (fun j => f (j + 2 ^ d))) d := by
        rw [updLoop_fst, foldPath_sibs]
      have hmc : dbConsistent hash
          (updLoop hash (lsbBits d idx)
            ((sibsOf hash (fun j => f (j + 2 ^ d)) idx d).reverse) val db).2 :=
        updLoop_consistent hash _ _ _ _ hc
      have hkeep : ∀ h v, db h = some v →
          (updLoop hash (lsbBits d idx)
            ((sibsOf hash (fun j => f (j + 2 ^ d)) idx d).reverse) val db).2 h = some v :=
        updLoop_keep hinj _ _ _ _ hc
      have hsub := ih (fun j => f (j + 2 ^ d)) idx val db hc h3
      have hLeft : rootOf hash (writeLeaf (d + 1) idx val f) d = rootOf hash f d :=
        rootOf_congr hash d _ f (writeLeaf_left_high hb val f)
      refine ⟨?_, ?_, ?_⟩
      · have hroot : rootOf hash (writeLeaf (d + 1) idx val f) (d + 1) =
            hash (rootOf hash f d)
              (updLoop hash (lsbBits d idx)
                ((sibsOf hash (fun j => f (j + 2 ^ d)) idx d).reverse) val db).1 := by
          rw [rootOf_succ, hLeft, writeLeaf_right_true hb, hm1]
        rw [hroot, Function.update_same, hLeft, writeLeaf_right_true hb, hm1]
      · refine treeOk_congr hash _ d f _ (fun j hj => (writeLeaf_left_high hb val f j hj).symm) ?_
        exact treeOk_mono
          (fun h v hv => update_keep hinj hmc _ _ (hkeep h v hv)) d f h2
      · rw [writeLeaf_right_true hb]
        exact treeOk_mono
          (fun h v hv => update_keep hinj hmc _ _ hv) d _ hsub

/-- Re-folding a leaf that already has the given value over a store that
already holds the whole tree neither changes the store (every insert
re-inserts the value already present) nor the root. -/
theorem updLoop_stable (hash : F → F → F) :
    ∀ (d : Nat) (f : Nat → F) (idx : Nat) (db : F → Option (F × F)),
      treeOk hash db f d →
      updLoop hash (lsbBits d idx) ((sibsOf hash f idx d).reverse)
          (f (idx % 2 ^ d)) db =
        (rootOf hash f d, db) := by
  intro d
  induction d with
  | zero =>
    intro f idx db _
    simp [lsbBits, sibsOf, updLoop, rootOf, Nat.mod_one]
  | succ d ih =>
    intro f idx db hok
    obtain ⟨h1, h2, h3⟩ := hok
    rw [lsbBits_concat]
    cases hb : idx.testBit d
    · rw [sibsOf_succ, hb]
      simp only [Bool.false_eq_true, if_false, List.reverse_cons]
      rw [updLoop_append _ _ _ _ _ _ _
        (by rw [lsbBits_length, List.length_reverse, sibsOf_length])]
      simp only [Bool.false_eq_true, if_false]
      have hv : f (idx % 2 ^ (d + 1)) = f (idx % 2 ^ d) := by
        rw [mod_pow_succ_false hb]
      rw [hv, ih f idx db h2]
      have hkey : hash (rootOf hash f d) (rootOf hash (fun j => f (j + 2 ^ d)) d) =
          rootOf hash f (d + 1) := (rootOf_succ hash f d).symm
      rw [hkey]
      rw [show ((rootOf hash f d, rootOf hash (fun j => f (j + 2 ^ d)) d) : F × F) =
          (db (rootOf hash f (d + 1))).getD (rootOf hash f d, rootOf hash f d) from by
        rw [h1]; rfl]
      rw [show (some ((db (rootOf hash f (d + 1))).getD
          (rootOf hash f d, rootOf hash f d)) : Option (F × F)) =
          db (rootOf hash f (d + 1)) from by rw [h1]; rfl]
      rw [Function.update_eq_self]
    · rw [sibsOf_succ, hb]
      simp only [if_true, List.reverse_cons]
      rw [updLoop_append _ _ _ _ _ _ _
        (by rw [lsbBits_length, List.length_reverse, sibsOf_length])]
      simp only [if_true]
      have hv : f (idx % 2 ^ (d + 1)) = (fun j => f (j + 2 ^ d)) (idx % 2 ^ d) := by
        rw [mod_pow_succ_true hb]
      rw [hv, ih (fun j => f (j + 2 ^ d)) idx db h3]
      have hkey : hash (rootOf hash f d) (rootOf hash (fun j => f (j + 2 ^ d)) d) =
          rootOf hash f (d + 1) := (rootOf_succ hash f d).symm
      rw [hkey]
      rw [show ((rootOf hash f d, rootOf hash (fun j => f (j + 2 ^ d)) d) : F × F) =
          (db (rootOf hash f (d + 1))).getD (rootOf hash f d, rootOf hash f d) from by
        rw [h1]; rfl]
      rw [show (some ((db (rootOf hash f (d + 1))).getD
          (rootOf hash f d, rootOf hash f d)) : Option (F × F)) =
          db (rootOf hash f (d + 1)) from by rw [h1]; rfl]
      rw [Function.update_eq_self]

/-! ## Tree-level specifications -/

/-- `get` on a tree satisfying the invariant returns the abstract leaf
value (at the index reduced to the depth-bit window) and the root-first
sibling sequence. -/
theorem get_spec {hash : F → F → F} {t : VanillaSparseMerkleTree F}
    {f : Nat → F} (hInv : TreeInv hash t f) (idx : Nat) :
    t.get idx = some (f (idx % 2 ^ t.depth), sibsOf hash f idx t.depth) := by
  unfold VanillaSparseMerkleTree.get
  rw [hInv.2.1]
  exact getLoop_spec hash t.depth f idx t.db hInv.2.2

/-- `update` on a tree satisfying the invariant succeeds and re-establishes
the invariant for the point-updated leaf assignment, preserving depth,
the default table and all existing store entries. -/
theorem update_spec {hash : F → F → F} (hinj : pairInj hash)
    {t : VanillaSparseMerkleTree F} {f : Nat → F} (hInv : TreeInv hash t f)
    (idx : Nat) (val : F) :
    ∃ t', VanillaSparseMerkleTree.update hash t idx val = some t' ∧
      t'.depth = t.depth ∧
      t'.empty_tree_hashes = t.empty_tree_hashes ∧
      TreeInv hash t' (writeLeaf t.depth idx val f) ∧
      (∀ h v, t.db h = some v → t'.db h = some v) := by
  refine ⟨⟨t.depth, t.empty_tree_hashes,
    (updLoop hash (lsbBits t.depth idx) ((sibsOf hash f idx t.depth).reverse)
      val t.db).2,
    (updLoop hash (lsbBits t.depth idx) ((sibsOf hash f idx t.depth).reverse)
      val t.db).1⟩, ?_, rfl, rfl, ?_, ?_⟩
  · unfold VanillaSparseMerkleTree.update
    rw [get_spec hInv idx]
    rfl
  · refine ⟨?_, ?_, ?_⟩
    · exact updLoop_consistent hash _ _ _ _ hInv.1
    · show (updLoop hash (lsbBits t.depth idx) ((sibsOf hash f idx t.depth).reverse)
          val t.db).1 = _
      rw [updLoop_fst, foldPath_sibs]
    · exact updLoop_treeOk hinj t.depth f idx val t.db hInv.1 hInv.2.2
  · exact fun h v hv => updLoop_keep hinj _ _ _ _ hInv.1 h v hv

/-- Running a sequence of updates from an invariant-satisfying tree never
panics, preserves depth and existing store entries, and re-establishes the
invariant for the fold of the writes. -/
theorem applyOps_spec {hash : F → F → F} (hinj : pairInj hash) :
    ∀ (ops : List (Nat × F)) (t : VanillaSparseMerkleTree F) (f : Nat → F),
      TreeInv hash t f →
      ∃ t', applyOps hash t ops = some t' ∧
        t'.depth = t.depth ∧
        TreeInv hash t' (writeList t.depth f ops) ∧
        (∀ h v, t.db h = some v → t'.db h = some v) := by
  intro ops
  induction ops with
  | nil =>
    intro t f hInv
    exact ⟨t, rfl, rfl, hInv, fun _ _ hv => hv⟩
  | cons p rest ih =>
    intro t f hInv
    obtain ⟨t1, hu, hd1, _, hI1, hk1⟩ := update_spec hinj hInv p.1 p.2
    obtain ⟨t', ha, hd', hI', hk'⟩ := ih t1 (writeLeaf t.depth p.1 p.2 f) hI1
    refine ⟨t', ?_, by rw [hd', hd1], ?_, fun h v hv => hk' h v (hk1 h v hv)⟩
    · show applyOps hash t (p :: rest) = some t'
      unfold applyOps
      rw [hu]
      exact ha
    · show TreeInv hash t' (writeList t.depth f (p :: rest))
      have heq : writeList t.depth f (p :: rest) =
          writeList t.depth (writeLeaf t.depth p.1 p.2 f) rest := rfl
      rw [heq]
      rw [hd1] at hI'
      exact hI'

/-! ## The freshly constructed tree -/

theorem buildDefaults_fst [Zero F] (hash : F → F → F) :
    ∀ i, (buildDefaults hash i).1 = defaultHashChain hash i := by
  intro i
  induction i with
  | zero => rfl
  | succ i ih =>
    show hash (buildDefaults hash i).1 (buildDefaults hash i).1 = _
    rw [ih]
    rfl

theorem buildDefaults_consistent [Zero F] (hash : F → F → F) :
    ∀ i, dbConsistent hash (buildDefaults hash i).2.2 := by
  intro i
  induction i with
  | zero => intro h a b hv; exact absurd hv (by simp [buildDefaults])
  | succ i ih => exact dbConsistent_insert ih _ _

theorem buildDefaults_entries [Zero F] {hash : F → F → F} (hinj : pairInj hash) :
    ∀ i k, k < i →
      (buildDefaults hash i).2.2 (defaultHashChain hash (k + 1)) =
        some (defaultHashChain hash k, defaultHashChain hash k) := by
  intro i
  induction i with
  | zero => intro k hk; omega
  | succ i ih =>
    intro k hk
    show Function.update (buildDefaults hash i).2.2
        (hash (buildDefaults hash i).1 (buildDefaults hash i).1)
        (some ((buildDefaults hash i).1, (buildDefaults hash i).1))
        (defaultHashChain hash (k + 1)) = _
    rcases Nat.lt_succ_iff_lt_or_eq.mp hk with hlt | rfl
    · exact update_keep hinj (buildDefaults_consistent hash i) _ _ (ih k hlt)
    · rw [buildDefaults_fst]
      have hkey : hash (defaultHashChain hash k) (defaultHashChain hash k) =
          defaultHashChain hash (k + 1) := rfl
      rw [hkey, Function.update_same]

theorem rootOf_const [Zero F] (hash : F → F → F) :
    ∀ d, rootOf hash (fun _ => (0 : F)) d = defaultHashChain hash d := by
  intro d
  induction d with
  | zero => rfl
  | succ d ih =>
    show hash (rootOf hash (fun _ => (0 : F)) d)
        (rootOf hash (fun _ => (0 : F)) d) = _
    rw [ih]
    rfl

theorem treeOk_default [Zero F] (hash : F → F → F) (db : F → Option (F × F)) :
    ∀ d, (∀ k < d, db (defaultHashChain hash (k + 1)) =
        some (defaultHashChain hash k, defaultHashChain hash k)) →
      treeOk hash db (fun _ => (0 : F)) d := by
  intro d
  induction d with
  | zero => intro _; trivial
  | succ d ih =>
    intro hdb
    refine ⟨?_, ih fun k hk => hdb k (by omega), ?_⟩
    · show db (rootOf hash (fun _ => (0 : F)) (d + 1)) =
        some (rootOf hash (fun _ => (0 : F)) d, rootOf hash (fun _ => (0 : F)) d)
      rw [rootOf_const, rootOf_const]
      exact hdb d (by omega)
    · exact ih fun k hk => hdb k (by omega)

/-- The fresh tree satisfies the invariant for the all-zero leaf
assignment. -/
theorem new_inv [Zero F] {hash : F → F → F} (hinj : pairInj hash) :
    TreeInv hash (VanillaSparseMerkleTree.new hash) (fun _ => (0 : F)) := by
  refine ⟨buildDefaults_consistent hash TreeDepth, ?_, ?_⟩
  · show (buildDefaults hash TreeDepth).1 = rootOf hash (fun _ => (0 : F)) TreeDepth
    rw [buildDefaults_fst, rootOf_const]
  · exact treeOk_default hash _ TreeDepth fun k hk =>
      buildDefaults_entries hinj TreeDepth k hk

/-! ## Sequences of writes -/

theorem lastVal_cons (p : Nat × F) (rest : List (Nat × F)) (idx : Nat) :
    lastVal (p :: rest) idx =
      match lastVal rest idx with
      | some v => some v
      | none => if p.1 = idx then some p.2 else none := rfl

theorem writeList_lastVal (d : Nat) :
    ∀ (ops : List (Nat × F)) (f : Nat → F) (idx : Nat),
      idx < 2 ^ d → (∀ p ∈ ops, p.1 < 2 ^ d) →
      writeList d f ops idx = (lastVal ops idx).getD (f idx) := by
  intro ops
  induction ops with
  | nil => intro f idx _ _; rfl
  | cons p rest ih =>
    intro f idx hidx hops
    have hstep : writeList d f (p :: rest) =
        writeList d (writeLeaf d p.1 p.2 f) rest := rfl
    rw [hstep, ih _ idx hidx fun q hq => hops q (List.mem_cons_of_mem p hq)]
    rw [lastVal_cons]
    cases hl : lastVal rest idx with
    | some v => simp [hl]
    | none =>
      simp only [hl, Option.getD_none]
      have hp : p.1 % 2 ^ d = p.1 := Nat.mod_eq_of_lt (hops p (List.mem_cons_self p rest))
      unfold writeLeaf
      rw [hp]
      by_cases he : p.1 = idx
      · simp [he]
      · have he2 : idx ≠ p.1 := fun h => he h.symm
        simp [he, he2]

/-! ## The verification fold -/

theorem verifyLoop_cons (hash : F → F → F) (idx : Nat) (prf : List F)
    (d i : Nat) (is : List Nat) (cur : F) :
    verifyLoop hash idx prf d (i :: is) cur =
      match prf.get? (d - 1 - i) with
      | none => none
      | some s =>
        verifyLoop hash idx prf d is
          (if idx.testBit i then hash s cur else hash cur s) := rfl

theorem verifyLoop_append (hash : F → F → F) (idx : Nat) (prf : List F) (d : Nat) :
    ∀ (is js : List Nat) (cur : F),
      verifyLoop hash idx prf d (is ++ js) cur =
        (verifyLoop hash idx prf d is cur).bind (verifyLoop hash idx prf d js) := by
  intro is
  induction is with
  | nil => intro js cur; rfl
  | cons i is ih =>
    intro js cur
    rw [List.cons_append, verifyLoop_cons, verifyLoop_cons]
    cases prf.get? (d - 1 - i) with
    | none => rfl
    | some s => exact ih js (if idx.testBit i then hash s cur else hash cur s)

/-- After `k` loop iterations, `verify_proof`'s running value is the
bottom-up fold of the *last* `k` proof entries, consumed in reverse
(leaf-adjacent, i.e. highest-index, entry first). -/
theorem verifyLoop_range (hash : F → F → F) (idx : Nat) (prf : List F) (d : Nat)
    (hlen : prf.length = d) :
    ∀ k, k ≤ d → ∀ val,
      verifyLoop hash idx prf d (List.range k) val =
        some (foldPath hash (lsbBits k idx) ((prf.drop (d - k)).reverse) val) := by
  intro k
  induction k with
  | zero =>
    intro _ val
    have : d - 0 = prf.length := by omega
    rw [this, List.drop_length]
    rfl
  | succ k ih =>
    intro hk val
    rw [List.range_succ, verifyLoop_append, ih (by omega) val]
    have hidx : d - 1 - k < prf.length := by omega
    show (verifyLoop hash idx prf d [k]
        (foldPath hash (lsbBits k idx) ((prf.drop (d - k)).reverse) val)) = _
    rw [verifyLoop_cons, List.get?_eq_get hidx]
    have hdrop : prf.drop (d - (k + 1)) = prf.get ⟨d - 1 - k, hidx⟩ :: prf.drop (d - k) := by
      have h2 : d - (k + 1) = d - 1 - k := by omega
      rw [h2, List.drop_eq_getElem_cons hidx]
      have h3 : d - 1 - k + 1 = d - k := by omega
      rw [h3]
      rfl
    rw [hdrop, List.reverse_cons, lsbBits_concat,
      foldPath_append _ _ _ _ _ _
        (by rw [lsbBits_length, List.length_reverse, List.length_drop, hlen]; omega)]
    rfl

/-- For a proof slice of exactly `depth` entries, `verify_proof` computes
the bottom-up fold of the *reversed* slice (leaf-first order) and compares
it with the selected root. -/
theorem verify_spec {F : Type} [DecidableEq F] (hash : F → F → F)
    (t : VanillaSparseMerkleTree F) (idx : Nat) (val : F) (prf : List F)
    (root? : Option F) (hlen : prf.length = t.depth) :
    VanillaSparseMerkleTree.verify_proof hash t idx val prf root? =
      some (decide (foldPath hash (lsbBits t.depth idx) prf.reverse val =
        root?.getD t.root)) := by
  unfold VanillaSparseMerkleTree.verify_proof
  rw [verifyLoop_range hash idx prf t.depth hlen t.depth le_rfl val]
  have hd : t.depth - t.depth = 0 := Nat.sub_self _
  rw [hd, List.drop_zero]
  cases root? <;> rfl

/-- An under-length proof slice makes the very first loop iteration index
out of bounds: `verify_proof` panics (returns `none`), never a boolean. -/
theorem verify_short {F : Type} [DecidableEq F] (hash : F → F → F)
    (t : VanillaSparseMerkleTree F) (idx : Nat) (val : F) (prf : List F)
    (root? : Option F) (hlen : prf.length < t.depth) :
    VanillaSparseMerkleTree.verify_proof hash t idx val prf root? = none := by
  unfold VanillaSparseMerkleTree.verify_proof
  obtain ⟨d, hdep⟩ : ∃ d, t.depth = d + 1 := ⟨t.depth - 1, by omega⟩
  rw [hdep, List.range_succ_eq_map, verifyLoop_cons]
  have hnone : prf.get? (d + 1 - 1 - 0) = none :=
    List.get?_eq_none.mpr (by omega)
  rw [hnone]
  rfl

/-! ## Claim theorems: tree operations -/

/-- C2: for every sequence of `update(idx, val)` calls on a tree
constructed by `new` (indices drawn from the spec's 32-bit index space),
a subsequent `get(idx)` — with or without a proof request, both run the
same loop — returns the value of the most recent update whose index
equals `idx`; stated under the collision-free idealisation of the hash
oracle (`pairInj`). -/
theorem C2_get_returns_last_update {F : Type} [DecidableEq F] [Zero F]
    {hash : F → F → F} (hinj : pairInj hash) (ops : List (Nat × F))
    (idx : Nat) (val : F)
    (hops : ∀ p ∈ ops, p.1 < 2 ^ TreeDepth) (hidx : idx < 2 ^ TreeDepth)
    (hlast : lastVal ops idx = some val) :
    (applyOps hash (VanillaSparseMerkleTree.new hash) ops).bind
      (fun t => (t.get idx).map Prod.fst) = some val := by
  obtain ⟨t, ha, hd, hI, _⟩ :=
    applyOps_spec hinj ops (VanillaSparseMerkleTree.new hash)
      (fun _ => (0 : F)) (new_inv hinj)
  rw [ha]
  show (t.get idx).map Prod.fst = some val
  rw [get_spec hI idx]
  simp only [Option.map_some']
  have hdepth : (VanillaSparseMerkleTree.new (F := F) hash).depth = TreeDepth := rfl
  rw [hd, hdepth, Nat.mod_eq_of_lt hidx]
  rw [writeList_lastVal TreeDepth ops (fun _ => (0 : F)) idx hidx hops, hlast]
  rfl

/-- Witness for C2 on a concrete injective pairing hash and one write. -/
theorem C2_witness :
    pairInj (fun a b : Nat => Nat.pair a b) ∧
    (applyOps (fun a b : Nat => Nat.pair a b)
        (VanillaSparseMerkleTree.new fun a b : Nat => Nat.pair a b)
        [(0, 0)]).bind (fun t => (t.get 0).map Prod.fst) = some 0 :=
  ⟨fun a b c d h => Nat.pair_eq_pair.mp h,
   C2_get_returns_last_update (fun a b c d h => Nat.pair_eq_pair.mp h)
     [(0, 0)] 0 0 (by decide) (by decide) (by decide)⟩

theorem pathLoop_cons {F : Type} [DecidableEq F] (db : F → Option (F × F))
    (b : Bool) (bs : List Bool) (cur : F) :
    pathLoop db (b :: bs) cur =
      match db cur with
      | none => none
      | some lr => (pathLoop db bs (if b then lr.2 else lr.1)).map (cur :: ·) := rfl

theorem pathLoop_head {F : Type} [DecidableEq F] :
    ∀ (bs : List Bool) (db : F → Option (F × F)) (cur : F) (l : List F),
      pathLoop db bs cur = some l → l.head? = some cur := by
  intro bs db cur l h
  cases bs with
  | nil =>
    obtain rfl : [cur] = l := by simpa [pathLoop] using h
    rfl
  | cons b bs =>
    rw [pathLoop_cons] at h
    cases hdb : db cur with
    | none =>
      rw [hdb] at h
      exact Option.noConfusion h
    | some lr =>
      rw [hdb] at h
      have h' : (pathLoop db bs (if b then lr.2 else lr.1)).map (cur :: ·) =
          some l := h
      cases hsub : pathLoop db bs (if b then lr.2 else lr.1) with
      | none => rw [hsub] at h'; exact Option.noConfusion h'
      | some l' =>
        rw [hsub] at h'
        obtain rfl : cur :: l' = l := by simpa using h'
        rfl

theorem pathLoop_isSome {F : Type} [DecidableEq F] (hash : F → F → F) :
    ∀ (d : Nat) (f : Nat → F) (idx : Nat) (db : F → Option (F × F)),
      treeOk hash db f d →
      ∃ l, pathLoop db (msbBits d idx) (rootOf hash f d) =
        some (rootOf hash f d :: l) := by
  intro d
  induction d with
  | zero =>
    intro f idx db _
    exact ⟨[], rfl⟩
  | succ d ih =>
    intro f idx db hok
    obtain ⟨h1, h2, h3⟩ := hok
    rw [msbBits_succ]
    cases hb : idx.testBit d
    · obtain ⟨l, hl⟩ := ih f idx db h2
      refine ⟨rootOf hash f d :: l, ?_⟩
      rw [pathLoop_cons, h1]
      show (pathLoop db (msbBits d idx) (rootOf hash f d)).map _ = _
      rw [hl]
      rfl
    · obtain ⟨l, hl⟩ := ih (fun j => f (j + 2 ^ d)) idx db h3
      refine ⟨rootOf hash (fun j => f (j + 2 ^ d)) d :: l, ?_⟩
      rw [pathLoop_cons, h1]
      show (pathLoop db (msbBits d idx)
        (rootOf hash (fun j => f (j + 2 ^ d)) d)).map _ = _
      rw [hl]
      rfl

theorem writeLeaf_self {F : Type} (d idx : Nat) (f : Nat → F) :
    writeLeaf d idx (f (idx % 2 ^ d)) f = f := by
  funext j
  unfold writeLeaf
  by_cases h : j = idx % 2 ^ d
  · rw [if_pos h, h]
  · rw [if_neg h]

/-- C3: for a tree reachable by `new` plus updates, the value/proof pair
returned by `get(idx)` verifies against the current root immediately
(`verify_proof(idx, val, proof, None) = true`), and keeps verifying
against the then-current root after further updates as long as the
digests on `idx`'s path are unchanged (no later update touched `idx`'s
path); stated under the collision-free idealisation `pairInj`. -/
theorem C3_get_proof_verifies {F : Type} [DecidableEq F] [Zero F]
    {hash : F → F → F} (hinj : pairInj hash) (ops : List (Nat × F))
    (t : VanillaSparseMerkleTree F) (idx : Nat) (v : F) (prf : List F)
    (ha : applyOps hash (VanillaSparseMerkleTree.new hash) ops = some t)
    (hget : t.get idx = some (v, prf)) :
    VanillaSparseMerkleTree.verify_proof hash t idx v prf none = some true ∧
    ∀ (ops' : List (Nat × F)) (t' : VanillaSparseMerkleTree F),
      applyOps hash t ops' = some t' →
      t'.pathDigests idx = t.pathDigests idx →
      VanillaSparseMerkleTree.verify_proof hash t' idx v prf none = some true := by
  obtain ⟨t0, ha0, hd0, hI, _⟩ :=
    applyOps_spec hinj ops (VanillaSparseMerkleTree.new hash)
      (fun _ => (0 : F)) (new_inv hinj)
  rw [ha0] at ha
  have heq : t0 = t := by injection ha
  rw [heq] at hI
  rw [get_spec hI idx] at hget
  obtain ⟨hv, hprf⟩ := Prod.mk.inj (Option.some.inj hget)
  have hlen : prf.length = t.depth := by
    rw [← hprf, sibsOf_length]
  have hfold : foldPath hash (lsbBits t.depth idx) prf.reverse v = t.root := by
    rw [← hprf, ← hv, foldPath_sibs, writeLeaf_self, hI.2.1]
  constructor
  · rw [verify_spec hash t idx v prf none hlen, hfold]
    simp
  · intro ops' t' ha' hpath
    obtain ⟨t1, ha1, hd1, _, _⟩ := applyOps_spec hinj ops' t _ hI
    rw [ha1] at ha'
    have heq1 : t1 = t' := by injection ha'
    rw [heq1] at hd1
    have hroot : t'.root = t.root := by
      obtain ⟨l, hl⟩ := pathLoop_isSome hash t.depth _ idx t.db hI.2.2
      have hpt : t.pathDigests idx = some (t.root :: l) := by
        unfold VanillaSparseMerkleTree.pathDigests
        rw [hI.2.1, hl, ← hI.2.1]
      rw [hpt] at hpath
      have h2 : t.root = t'.root := by
        simpa using pathLoop_head (msbBits t'.depth idx) t'.db t'.root (t.root :: l) hpath
      exact h2.symm
    rw [verify_spec hash t' idx v prf none (by rw [hlen, hd1])]
    have hfold' : foldPath hash (lsbBits t'.depth idx) prf.reverse v = t.root := by
      rw [hd1]
      exact hfold
    rw [hfold', hroot]
    simp

/-- Witness for C3: on the fresh pairing-hash tree, the proof returned by
`get 0` verifies. -/
theorem C3_witness :
    (VanillaSparseMerkleTree.new (fun a b : Nat => Nat.pair a b)).get 0 =
      some (0, List.replicate 32 0) ∧
    VanillaSparseMerkleTree.verify_proof (fun a b : Nat => Nat.pair a b)
      (VanillaSparseMerkleTree.new fun a b : Nat => Nat.pair a b) 0 0
      (List.replicate 32 0) none = some true :=
  ⟨by decide,
   (C3_get_proof_verifies (fun a b c d h => Nat.pair_eq_pair.mp h) []
     (VanillaSparseMerkleTree.new fun a b : Nat => Nat.pair a b) 0 0
     (List.replicate 32 0) rfl (by decide)).1⟩

/-- C9: `update` is deterministic and idempotent on reachable tree
states: repeating the same `(idx, val)` update leaves the tree — root and
node-store content included — exactly as after the first update; stated
under the collision-free idealisation `pairInj`. -/
theorem C9_update_idempotent {F : Type} [DecidableEq F] [Zero F]
    {hash : F → F → F} (hinj : pairInj hash) (ops : List (Nat × F))
    (t : VanillaSparseMerkleTree F) (idx : Nat) (val : F)
    (ha : applyOps hash (VanillaSparseMerkleTree.new hash) ops = some t) :
    (VanillaSparseMerkleTree.update hash t idx val).bind
      (fun u => VanillaSparseMerkleTree.update hash u idx val) =
      VanillaSparseMerkleTree.update hash t idx val := by
  obtain ⟨t0, ha0, _, hI, _⟩ :=
    applyOps_spec hinj ops (VanillaSparseMerkleTree.new hash)
      (fun _ => (0 : F)) (new_inv hinj)
  rw [ha0] at ha
  have heq : t0 = t := by injection ha
  rw [heq] at hI
  obtain ⟨t1, hu1, hd1, _, hI1, _⟩ := update_spec hinj hI idx val
  rw [hu1]
  show VanillaSparseMerkleTree.update hash t1 idx val = some t1
  unfold VanillaSparseMerkleTree.update
  rw [get_spec hI1 idx]
  simp only [Option.map_some']
  have hval : (writeLeaf t.depth idx val
      (writeList (VanillaSparseMerkleTree.new hash).depth (fun _ => (0 : F)) ops))
      (idx % 2 ^ t1.depth) = val := by
    rw [hd1]
    unfold writeLeaf
    simp
  have hstab := updLoop_stable hash t1.depth
    (writeLeaf t.depth idx val
      (writeList (VanillaSparseMerkleTree.new hash).depth (fun _ => (0 : F)) ops))
    idx t1.db hI1.2.2
  rw [hval] at hstab
  rw [hstab, ← hI1.2.1]

/-- Witness for C9 on the concrete pairing hash. -/
theorem C9_witness :
    (VanillaSparseMerkleTree.update (fun a b : Nat => Nat.pair a b)
        (VanillaSparseMerkleTree.new fun a b : Nat => Nat.pair a b) 0 0).bind
      (fun u => VanillaSparseMerkleTree.update (fun a b : Nat => Nat.pair a b)
        u 0 0) =
      VanillaSparseMerkleTree.update (fun a b : Nat => Nat.pair a b)
        (VanillaSparseMerkleTree.new fun a b : Nat => Nat.pair a b) 0 0 :=
  C9_update_idempotent (fun a b c d h => Nat.pair_eq_pair.mp h) []
    (VanillaSparseMerkleTree.new fun a b : Nat => Nat.pair a b) 0 0 rfl

/-- C8: from any reachable state, further updates keep succeeding, the
store lookup walk of `get` (also performed inside `update`) never misses
at any index, and the store never shrinks across operations (every digest
present before is present after); stated under the collision-free
idealisation `pairInj`. -/
theorem C8_store_complete {F : Type} [DecidableEq F] [Zero F]
    {hash : F → F → F} (hinj : pairInj hash) (ops ops' : List (Nat × F))
    (idx idx' : Nat) :
    ∃ t, applyOps hash (VanillaSparseMerkleTree.new hash) ops = some t ∧
      (t.get idx).isSome ∧
      ∃ t', applyOps hash t ops' = some t' ∧ (t'.get idx').isSome ∧
        ∀ h, (t.db h).isSome → (t'.db h).isSome := by
  obtain ⟨t, ha, hd, hI, _⟩ :=
    applyOps_spec hinj ops (VanillaSparseMerkleTree.new hash)
      (fun _ => (0 : F)) (new_inv hinj)
  obtain ⟨t', ha', hd', hI', hk'⟩ := applyOps_spec hinj ops' t _ hI
  refine ⟨t, ha, ?_, t', ha', ?_, ?_⟩
  · rw [get_spec hI idx]; rfl
  · rw [get_spec hI' idx']; rfl
  · intro h hs
    cases hv : t.db h with
    | none => rw [hv] at hs; exact absurd hs (by simp)
    | some v => rw [hk' h v hv]; rfl

/-- Witness for C8 on the concrete pairing hash. -/
theorem C8_witness :
    ∃ t, applyOps (fun a b : Nat => Nat.pair a b)
        (VanillaSparseMerkleTree.new fun a b : Nat => Nat.pair a b)
        [(1, 2)] = some t ∧
      (t.get 3).isSome ∧
      ∃ t', applyOps (fun a b : Nat => Nat.pair a b) t [(4, 5)] = some t' ∧
        (t'.get 1).isSome ∧ ∀ h, (t.db h).isSome → (t'.db h).isSome :=
  C8_store_complete (fun a b c d h => Nat.pair_eq_pair.mp h) [(1, 2)] [(4, 5)] 3 1

/-- C10: `verify_proof` on a proof slice with fewer than `depth` entries
(32 for trees built by `new`) hits an out-of-bounds index at
`proof[depth - 1 - i]` on the very first iteration and panics (`none` in
this model) instead of returning a boolean. -/
theorem C10_short_proof_panics {F : Type} [DecidableEq F] (hash : F → F → F)
    (t : VanillaSparseMerkleTree F) (idx : Nat) (val : F) (prf : List F)
    (root? : Option F) (hlen : prf.length < t.depth) :
    VanillaSparseMerkleTree.verify_proof hash t idx val prf root? = none :=
  verify_short hash t idx val prf root? hlen

/-- Witness for C10: the empty proof slice against a depth-32 tree. -/
theorem C10_witness :
    ([] : List Nat).length <
      (VanillaSparseMerkleTree.new fun a b : Nat => a + b + 1).depth ∧
    VanillaSparseMerkleTree.verify_proof (fun a b : Nat => a + b + 1)
      (VanillaSparseMerkleTree.new fun a b : Nat => a + b + 1) 0 0 [] none =
      none :=
  ⟨by decide,
   C10_short_proof_panics (fun a b : Nat => a + b + 1)
     (VanillaSparseMerkleTree.new fun a b : Nat => a + b + 1) 0 0 [] none
     (by decide)⟩

/-- C4 counterexample: on a concrete tree, `verify_proof` succeeds on the
sibling sequence *exactly as produced by `get`* (root-first, no
reversal), and returns `false` on its explicit reversal — so the sequence
supplied to `verify_proof` is root-first, not leaf-first, and the caller
must *not* reverse it; the leaf-first order is realised internally via
the `proof[D-1-i]` indexing. -/
theorem C4_counterexample :
    (VanillaSparseMerkleTree.new (fun a b : Nat => 2 * a + b + 1)).get 0 =
      some (0, (List.range 32).map fun i => (3 ^ (31 - i) - 1) / 2) ∧
    VanillaSparseMerkleTree.verify_proof (fun a b : Nat => 2 * a + b + 1)
      (VanillaSparseMerkleTree.new fun a b : Nat => 2 * a + b + 1) 0 0
      ((List.range 32).map fun i => (3 ^ (31 - i) - 1) / 2) none = some true ∧
    VanillaSparseMerkleTree.verify_proof (fun a b : Nat => 2 * a + b + 1)
      (VanillaSparseMerkleTree.new fun a b : Nat => 2 * a + b + 1) 0 0
      (((List.range 32).map fun i => (3 ^ (31 - i) - 1) / 2).reverse) none =
      some false :=
  ⟨by decide, by decide, by decide⟩

/-- C4 (amended): `get` produces the sibling sequence in root-first
order; `verify_proof` *consumes* it in leaf-first order — the exact
reverse — by taking `proof[D-1-i]` as the sibling at fold level `i`
(leaf-adjacent entry, the last one, consumed first), so its fold equals
the plain fold over the explicitly reversed sequence; the explicit
reversal is performed internally by the indexing (only the circuit
gadget requires the caller to reverse).  Stated under `pairInj`. -/
theorem C4_order_reversal_amended {F : Type} [DecidableEq F] [Zero F]
    {hash : F → F → F} (hinj : pairInj hash) (ops : List (Nat × F))
    (t : VanillaSparseMerkleTree F) (idx : Nat) (v : F) (prf : List F)
    (ha : applyOps hash (VanillaSparseMerkleTree.new hash) ops = some t)
    (hget : t.get idx = some (v, prf)) :
    VanillaSparseMerkleTree.verify_proof hash t idx v prf none = some true ∧
    (∀ (val' : F) (root? : Option F),
      VanillaSparseMerkleTree.verify_proof hash t idx val' prf root? =
        some (decide (foldPath hash (lsbBits t.depth idx) prf.reverse val' =
          root?.getD t.root))) ∧
    (∀ i < t.depth, prf.reverse.get? i = prf.get? (t.depth - 1 - i)) := by
  obtain ⟨t0, ha0, _, hI, _⟩ :=
    applyOps_spec hinj ops (VanillaSparseMerkleTree.new hash)
      (fun _ => (0 : F)) (new_inv hinj)
  rw [ha0] at ha
  have heq : t0 = t := by injection ha
  rw [heq] at hI
  rw [get_spec hI idx] at hget
  obtain ⟨hv, hprf⟩ := Prod.mk.inj (Option.some.inj hget)
  have hlen : prf.length = t.depth := by rw [← hprf, sibsOf_length]
  refine ⟨?_, ?_, ?_⟩
  · rw [verify_spec hash t idx v prf none hlen]
    rw [show foldPath hash (lsbBits t.depth idx) prf.reverse v = t.root from by
      rw [← hprf, ← hv, foldPath_sibs, writeLeaf_self, hI.2.1]]
    simp
  · intro val' root?
    exact verify_spec hash t idx val' prf root? hlen
  · intro i hi
    rw [List.get?_reverse (by rw [hlen]; exact hi), hlen]

/-- Witness for C4 (amended) on the concrete pairing hash. -/
theorem C4_witness :
    (VanillaSparseMerkleTree.new (fun a b : Nat => Nat.pair a b)).get 1 =
      some (0, List.replicate 32 0) ∧
    VanillaSparseMerkleTree.verify_proof (fun a b : Nat => Nat.pair a b)
      (VanillaSparseMerkleTree.new fun a b : Nat => Nat.pair a b) 1 0
      (List.replicate 32 0) none = some true :=
  ⟨by decide,
   (C4_order_reversal_amended (fun a b c d h => Nat.pair_eq_pair.mp h) []
     (VanillaSparseMerkleTree.new fun a b : Nat => Nat.pair a b) 1 0
     (List.replicate 32 0) rfl (by decide)).1⟩

theorem buildDefaults_table {F : Type} [DecidableEq F] [Zero F]
    (hash : F → F → F) :
    ∀ i, (buildDefaults hash i).2.1 =
      (List.range (i + 1)).map (defaultHashChain hash) := by
  intro i
  induction i with
  | zero => rfl
  | succ i ih =>
    show (buildDefaults hash i).2.1 ++
        [hash (buildDefaults hash i).1 (buildDefaults hash i).1] = _
    rw [ih, buildDefaults_fst,
      show List.range (i + 1 + 1) = List.range (i + 1) ++ [i + 1] from by
        rw [List.range_succ],
      List.map_append]
    rfl

theorem buildDefaults_entries_of_inj {F : Type} [DecidableEq F] [Zero F]
    (hash : F → F → F) (N : Nat)
    (hcinj : ∀ j k, j ≤ N → k ≤ N →
      defaultHashChain hash j = defaultHashChain hash k → j = k) :
    ∀ i, i ≤ N → ∀ k, k < i →
      (buildDefaults hash i).2.2 (defaultHashChain hash (k + 1)) =
        some (defaultHashChain hash k, defaultHashChain hash k) := by
  intro i
  induction i with
  | zero => intro _ k hk; omega
  | succ i ih =>
    intro hiN k hk
    show Function.update (buildDefaults hash i).2.2
        (hash (buildDefaults hash i).1 (buildDefaults hash i).1)
        (some ((buildDefaults hash i).1, (buildDefaults hash i).1))
        (defaultHashChain hash (k + 1)) = _
    rw [buildDefaults_fst]
    have hkey : hash (defaultHashChain hash i) (defaultHashChain hash i) =
        defaultHashChain hash (i + 1) := rfl
    rw [hkey]
    rcases Nat.lt_succ_iff_lt_or_eq.mp hk with hlt | hke
    · rw [Function.update_noteq (fun he => by
        have := hcinj (k + 1) (i + 1) (by omega) (by omega) he
        omega)]
      exact ih (by omega) k hlt
    · rw [hke, Function.update_same]

/-- C5: a freshly constructed tree has `table[0] = 0`,
`table[i] = hash(table[i-1], table[i-1])` for `i = 1..D`, root equal to
`table[D]` — the `D`-fold self-hashing of the canonical empty-leaf value
`0` — and (whenever the table has no duplicate digests, e.g. for a
collision-free hash) the node store maps each `table[i]` to the pair
`(table[i-1], table[i-1])` inserted under it. -/
theorem C5_default_tree {F : Type} [DecidableEq F] [Zero F]
    (hash : F → F → F)
    (hnd : (VanillaSparseMerkleTree.new hash).empty_tree_hashes.Nodup) :
    (VanillaSparseMerkleTree.new hash).empty_tree_hashes.get? 0 = some 0 ∧
    (∀ i < TreeDepth,
      (VanillaSparseMerkleTree.new hash).empty_tree_hashes.get? (i + 1) =
        ((VanillaSparseMerkleTree.new hash).empty_tree_hashes.get? i).map
          (fun p => hash p p)) ∧
    (VanillaSparseMerkleTree.new hash).empty_tree_hashes.get? TreeDepth =
      some (VanillaSparseMerkleTree.new hash).root ∧
    (VanillaSparseMerkleTree.new hash).root = defaultHashChain hash TreeDepth ∧
    (∀ i < TreeDepth, ∀ p,
      (VanillaSparseMerkleTree.new hash).empty_tree_hashes.get? i = some p →
      (VanillaSparseMerkleTree.new hash).db (hash p p) = some (p, p)) := by
  have htbl : (VanillaSparseMerkleTree.new hash).empty_tree_hashes =
      (List.range (TreeDepth + 1)).map (defaultHashChain hash) :=
    buildDefaults_table hash TreeDepth
  have hget : ∀ i, i ≤ TreeDepth →
      (VanillaSparseMerkleTree.new hash).empty_tree_hashes.get? i =
        some (defaultHashChain hash i) := by
    intro i hi
    rw [htbl, List.get?_map, List.get?_range (by omega)]
    rfl
  refine ⟨?_, ?_, ?_, ?_, ?_⟩
  · rw [hget 0 (by omega)]; rfl
  · intro i hi
    rw [hget i (by omega), hget (i + 1) (by omega)]
    rfl
  · rw [hget TreeDepth le_rfl,
      show (VanillaSparseMerkleTree.new hash).root =
        defaultHashChain hash TreeDepth from buildDefaults_fst hash TreeDepth]
  · exact buildDefaults_fst hash TreeDepth
  · have hcinj : ∀ j k, j ≤ TreeDepth → k ≤ TreeDepth →
        defaultHashChain hash j = defaultHashChain hash k → j = k := by
      intro j k hj hk he
      rw [htbl] at hnd
      refine List.get?_inj ?_ hnd ?_
      · rw [List.length_map, List.length_range]; omega
      · rw [List.get?_map, List.get?_map, List.get?_range (by omega),
          List.get?_range (by omega)]
        simpa using he
    intro i hi p hp
    rw [hget i (by omega)] at hp
    obtain rfl : defaultHashChain hash i = p := by injection hp
    have hkey : hash (defaultHashChain hash i) (defaultHashChain hash i) =
        defaultHashChain hash (i + 1) := rfl
    rw [hkey]
    exact buildDefaults_entries_of_inj hash TreeDepth hcinj TreeDepth le_rfl i hi

/-- Witness for C5 on a concrete hash whose default table is
duplicate-free. -/
theorem C5_witness :
    (VanillaSparseMerkleTree.new fun a b : Nat => a + b + 1).empty_tree_hashes.Nodup ∧
    (VanillaSparseMerkleTree.new
      fun a b : Nat => a + b + 1).empty_tree_hashes.get? 0 = some 0 :=
  ⟨by decide, (C5_default_tree (fun a b : Nat => a + b + 1) (by decide)).1⟩

/-! ## Linear-combination lemmas -/

section GadgetLemmas

variable {F : Type} [CommRing F]

theorem evalAux_shift :
    ∀ (terms : List (Nat × F)) (a : Nat → F) (x y : F),
      terms.foldl (fun acc t => acc + t.2 * a t.1) (x + y) =
        x + terms.foldl (fun acc t => acc + t.2 * a t.1) y := by
  intro terms
  induction terms with
  | nil => intro a x y; rfl
  | cons t ts ih =>
    intro a x y
    show ts.foldl _ (x + y + t.2 * a t.1) = _
    rw [add_assoc, ih]
    rfl

theorem evalAux_congr :
    ∀ (terms : List (Nat × F)) (c : F) (a a' : Nat → F),
      (∀ t ∈ terms, a' t.1 = a t.1) →
      terms.foldl (fun acc t => acc + t.2 * a' t.1) c =
        terms.foldl (fun acc t => acc + t.2 * a t.1) c := by
  intro terms
  induction terms with
  | nil => intro c a a' _; rfl
  | cons t ts ih =>
    intro c a a' h
    show ts.foldl _ (c + t.2 * a' t.1) = ts.foldl _ (c + t.2 * a t.1)
    rw [h t (List.mem_cons_self t ts)]
    exact ih _ a a' fun u hu => h u (List.mem_cons_of_mem t hu)

theorem LinearCombination.eval_congr {lc : LinearCombination F} {n : Nat}
    (hwf : lc.varsLt n) {a a' : Nat → F} (ha : ∀ i < n, a' i = a i) :
    lc.eval a' = lc.eval a :=
  evalAux_congr lc.terms lc.const a a' fun t ht => ha t.1 (hwf t ht)

theorem eval_LCofVar (v : Nat) (a : Nat → F) : (LCofVar v).eval a = a v := by
  show (0 : F) + 1 * a v = a v
  ring

theorem eval_LConeMinus (v : Nat) (a : Nat → F) :
    (LConeMinus v).eval a = 1 - a v := by
  show (1 : F) + (-1) * a v = 1 - a v
  ring

theorem eval_LCadd (l1 l2 : LinearCombination F) (a : Nat → F) :
    (LCadd l1 l2).eval a = l1.eval a + l2.eval a := by
  show (l1.terms ++ l2.terms).foldl _ (l1.const + l2.const) = _
  rw [List.foldl_append, add_comm l1.const l2.const, evalAux_shift,
    add_comm l2.const]
  rw [evalAux_shift]
  rfl

theorem varsLt_LCofVar {v n : Nat} (h : v < n) :
    (LCofVar (F := F) v).varsLt n := by
  intro t ht
  obtain rfl : t = (v, (1 : F)) := by simpa [LCofVar] using ht
  exact h

theorem varsLt_LConeMinus {v n : Nat} (h : v < n) :
    (LConeMinus (F := F) v).varsLt n := by
  intro t ht
  obtain rfl : t = (v, (-1 : F)) := by simpa [LConeMinus] using ht
  exact h

theorem varsLt_LCadd {l1 l2 : LinearCombination F} {n : Nat}
    (h1 : l1.varsLt n) (h2 : l2.varsLt n) : (LCadd l1 l2).varsLt n := by
  intro t ht
  rcases List.mem_append.mp ht with h | h
  · exact h1 t h
  · exact h2 t h

theorem varsLt_mono {lc : LinearCombination F} {n m : Nat}
    (h : lc.varsLt n) (hnm : n ≤ m) : lc.varsLt m :=
  fun t ht => lt_of_lt_of_le (h t ht) hnm

/-! ## Constraint-system operation lemmas -/

theorem multiply_nVars (s : R1CSState F) (l r : LinearCombination F) :
    (s.multiply l r).2.nVars = s.nVars + 3 := rfl

theorem multiply_assignment_lt (s : R1CSState F) (l r : LinearCombination F)
    {i : Nat} (h : i < s.nVars) :
    (s.multiply l r).2.assignment i = s.assignment i := by
  show (if i = s.nVars then _ else if i = s.nVars + 1 then _
    else if i = s.nVars + 2 then _ else s.assignment i) = s.assignment i
  rw [if_neg (by omega), if_neg (by omega), if_neg (by omega)]

theorem multiply_out (s : R1CSState F) (l r : LinearCombination F) :
    (s.multiply l r).2.assignment (s.nVars + 2) =
      l.eval s.assignment * r.eval s.assignment := by
  show (if s.nVars + 2 = s.nVars then _
    else if s.nVars + 2 = s.nVars + 1 then _
    else if s.nVars + 2 = s.nVars + 2 then
      l.eval s.assignment * r.eval s.assignment
    else _) = _
  rw [if_neg (by omega), if_neg (by omega), if_pos rfl]

theorem multiply_muls (s : R1CSState F) (l r : LinearCombination F) :
    (s.multiply l r).2.muls = s.muls ++ [(l, r, s.nVars + 2)] := rfl

theorem multiply_hashGates (s : R1CSState F) (l r : LinearCombination F) :
    (s.multiply l r).2.hashGates = s.hashGates := rfl

theorem multiply_constraints (s : R1CSState F) (l r : LinearCombination F) :
    (s.multiply l r).2.constraints = s.constraints := rfl

theorem poseidon_nVars (hash : F → F → F) (s : R1CSState F)
    (l r : LinearCombination F) (st : List (LinearCombination F)) :
    (Poseidon_hash_2_constraints hash s l r st).2.nVars = s.nVars + 1 := rfl

theorem poseidon_assignment_lt (hash : F → F → F) (s : R1CSState F)
    (l r : LinearCombination F) (st : List (LinearCombination F)) {i : Nat}
    (h : i < s.nVars) :
    (Poseidon_hash_2_constraints hash s l r st).2.assignment i =
      s.assignment i := by
  show (if i = s.nVars then _ else s.assignment i) = s.assignment i
  rw [if_neg (by omega)]

theorem poseidon_out (hash : F → F → F) (s : R1CSState F)
    (l r : LinearCombination F) (st : List (LinearCombination F)) :
    (Poseidon_hash_2_constraints hash s l r st).2.assignment s.nVars =
      hash (l.eval s.assignment) (r.eval s.assignment) := by
  show (if s.nVars = s.nVars then
    hash (l.eval s.assignment) (r.eval s.assignment) else _) = _
  rw [if_pos rfl]

theorem poseidon_fst (hash : F → F → F) (s : R1CSState F)
    (l r : LinearCombination F) (st : List (LinearCombination F)) :
    (Poseidon_hash_2_constraints hash s l r st).1 = LCofVar s.nVars := rfl

theorem poseidon_muls (hash : F → F → F) (s : R1CSState F)
    (l r : LinearCombination F) (st : List (LinearCombination F)) :
    (Poseidon_hash_2_constraints hash s l r st).2.muls = s.muls := rfl

theorem poseidon_hashGates (hash : F → F → F) (s : R1CSState F)
    (l r : LinearCombination F) (st : List (LinearCombination F)) :
    (Poseidon_hash_2_constraints hash s l r st).2.hashGates =
      s.hashGates ++ [(l, r, s.nVars)] := rfl

theorem poseidon_constraints (hash : F → F → F) (s : R1CSState F)
    (l r : LinearCombination F) (st : List (LinearCombination F)) :
    (Poseidon_hash_2_constraints hash s l r st).2.constraints =
      s.constraints := rfl

end GadgetLemmas

/-- One level of the gadget: peeling `gadgetLoop` on a singleton emits
exactly the four multiplication gates and one hash gate of
`gadgetTrace`, allocates 13 wires, leaves earlier assignments and the
constraint list untouched, assigns the hash-output wire the selected
two-to-one hash, and every emitted gate is satisfied by any assignment
that agrees with the produced one on the first `nVars + 13` wires. -/
theorem gadgetStep_spec {F : Type} [CommRing F] (hash : F → F → F)
    (statics : List (LinearCombination F)) (bp : Nat × Nat)
    (p : LinearCombination F) (s : R1CSState F)
    (hp : p.varsLt s.nVars) (hb1 : bp.1 < s.nVars) (hb2 : bp.2 < s.nVars) :
    ∃ s', gadgetLoop hash statics [bp] p s = (LCofVar (s.nVars + 12), s') ∧
      s'.nVars = s.nVars + 13 ∧
      (∀ i, i < s.nVars → s'.assignment i = s.assignment i) ∧
      s'.assignment (s.nVars + 12) =
        hash ((1 - s.assignment bp.1) * p.eval s.assignment +
            s.assignment bp.1 * s.assignment bp.2)
          (s.assignment bp.1 * p.eval s.assignment +
            (1 - s.assignment bp.1) * s.assignment bp.2) ∧
      s'.muls = s.muls ++ (gadgetTrace [bp] p s.nVars).1 ∧
      s'.hashGates = s.hashGates ++ (gadgetTrace [bp] p s.nVars).2 ∧
      s'.constraints = s.constraints ∧
      (∀ g ∈ (gadgetTrace [bp] p s.nVars).1, ∀ a : Nat → F,
        (∀ i, i < s.nVars + 13 → a i = s'.assignment i) →
        g.1.eval a * g.2.1.eval a = a g.2.2) ∧
      (∀ g ∈ (gadgetTrace [bp] p s.nVars).2, ∀ a : Nat → F,
        (∀ i, i < s.nVars + 13 → a i = s'.assignment i) →
        a g.2.2 = hash (g.1.eval a) (g.2.1.eval a)) := by
  set s1 := (s.multiply (LConeMinus bp.1) p).2 with hs1
  set s2 := (s1.multiply (LCofVar bp.1) (LCofVar bp.2)).2 with hs2
  set s3 := (s2.multiply (LCofVar bp.1) p).2 with hs3
  set s4 := (s3.multiply (LConeMinus bp.1) (LCofVar bp.2)).2 with hs4
  set lf : LinearCombination F := LCadd (LCofVar (s.nVars + 2)) (LCofVar (s.nVars + 5)) with hlf
  set rt : LinearCombination F := LCadd (LCofVar (s.nVars + 8)) (LCofVar (s.nVars + 11)) with hrt
  set s5 := (Poseidon_hash_2_constraints hash s4 lf rt statics).2 with hs5
  have hn1 : s1.nVars = s.nVars + 3 := rfl
  have hn2 : s2.nVars = s.nVars + 6 := rfl
  have hn3 : s3.nVars = s.nVars + 9 := rfl
  have hn4 : s4.nVars = s.nVars + 12 := rfl
  have hn5 : s5.nVars = s.nVars + 13 := rfl
  have hst1 : ∀ i, i < s.nVars → s1.assignment i = s.assignment i := by
    intro i hi
    rw [hs1, multiply_assignment_lt s _ _ hi]
  have hst2 : ∀ i, i < s.nVars → s2.assignment i = s.assignment i := by
    intro i hi
    rw [hs2, multiply_assignment_lt s1 _ _ (show i < s1.nVars by omega)]
    exact hst1 i hi
  have hst3 : ∀ i, i < s.nVars → s3.assignment i = s.assignment i := by
    intro i hi
    rw [hs3, multiply_assignment_lt s2 _ _ (show i < s2.nVars by omega)]
    exact hst2 i hi
  have hst4 : ∀ i, i < s.nVars → s4.assignment i = s.assignment i := by
    intro i hi
    rw [hs4, multiply_assignment_lt s3 _ _ (show i < s3.nVars by omega)]
    exact hst3 i hi
  have hst5 : ∀ i, i < s.nVars → s5.assignment i = s.assignment i := by
    intro i hi
    rw [hs5, poseidon_assignment_lt hash s4 _ _ _ (show i < s4.nVars by omega)]
    exact hst4 i hi
  have hv2s1 : s1.assignment (s.nVars + 2) =
      (1 - s.assignment bp.1) * p.eval s.assignment := by
    rw [hs1, multiply_out, eval_LConeMinus]
  have hv2 : s4.assignment (s.nVars + 2) =
      (1 - s.assignment bp.1) * p.eval s.assignment := by
    rw [hs4, multiply_assignment_lt s3 _ _ (show s.nVars + 2 < s3.nVars by omega),
      hs3, multiply_assignment_lt s2 _ _ (show s.nVars + 2 < s2.nVars by omega),
      hs2, multiply_assignment_lt s1 _ _ (show s.nVars + 2 < s1.nVars by omega)]
    exact hv2s1
  have hv5s2 : s2.assignment (s.nVars + 5) =
      s.assignment bp.1 * s.assignment bp.2 := by
    rw [hs2, show s.nVars + 5 = s1.nVars + 2 by omega, multiply_out,
      eval_LCofVar, eval_LCofVar, hst1 bp.1 hb1, hst1 bp.2 hb2]
  have hv5 : s4.assignment (s.nVars + 5) =
      s.assignment bp.1 * s.assignment bp.2 := by
    rw [hs4, multiply_assignment_lt s3 _ _ (show s.nVars + 5 < s3.nVars by omega),
      hs3, multiply_assignment_lt s2 _ _ (show s.nVars + 5 < s2.nVars by omega)]
    exact hv5s2
  have hpv2 : p.eval s2.assignment = p.eval s.assignment :=
    LinearCombination.eval_congr hp fun i hi => hst2 i hi
  have hv8s3 : s3.assignment (s.nVars + 8) =
      s.assignment bp.1 * p.eval s.assignment := by
    rw [hs3, show s.nVars + 8 = s2.nVars + 2 by omega, multiply_out,
      eval_LCofVar, hst2 bp.1 hb1, hpv2]
  have hv8 : s4.assignment (s.nVars + 8) =
      s.assignment bp.1 * p.eval s.assignment := by
    rw [hs4, multiply_assignment_lt s3 _ _ (show s.nVars + 8 < s3.nVars by omega)]
    exact hv8s3
  have hv11 : s4.assignment (s.nVars + 11) =
      (1 - s.assignment bp.1) * s.assignment bp.2 := by
    rw [hs4, show s.nVars + 11 = s3.nVars + 2 by omega, multiply_out,
      eval_LConeMinus, eval_LCofVar, hst3 bp.1 hb1, hst3 bp.2 hb2]
  have hlf4 : lf.eval s4.assignment =
      (1 - s.assignment bp.1) * p.eval s.assignment +
        s.assignment bp.1 * s.assignment bp.2 := by
    rw [hlf, eval_LCadd, eval_LCofVar, eval_LCofVar, hv2, hv5]
  have hrt4 : rt.eval s4.assignment =
      s.assignment bp.1 * p.eval s.assignment +
        (1 - s.assignment bp.1) * s.assignment bp.2 := by
    rw [hrt, eval_LCadd, eval_LCofVar, eval_LCofVar, hv8, hv11]
  have hout : s5.assignment (s.nVars + 12) =
      hash ((1 - s.assignment bp.1) * p.eval s.assignment +
          s.assignment bp.1 * s.assignment bp.2)
        (s.assignment bp.1 * p.eval s.assignment +
          (1 - s.assignment bp.1) * s.assignment bp.2) := by
    rw [hs5, show s.nVars + 12 = s4.nVars from hn4.symm, poseidon_out, hlf4, hrt4]
  have hw2 : s5.assignment (s.nVars + 2) =
      (1 - s.assignment bp.1) * p.eval s.assignment := by
    rw [hs5, poseidon_assignment_lt hash s4 _ _ _
      (show s.nVars + 2 < s4.nVars by omega)]
    exact hv2
  have hw5 : s5.assignment (s.nVars + 5) =
      s.assignment bp.1 * s.assignment bp.2 := by
    rw [hs5, poseidon_assignment_lt hash s4 _ _ _
      (show s.nVars + 5 < s4.nVars by omega)]
    exact hv5
  have hw8 : s5.assignment (s.nVars + 8) =
      s.assignment bp.1 * p.eval s.assignment := by
    rw [hs5, poseidon_assignment_lt hash s4 _ _ _
      (show s.nVars + 8 < s4.nVars by omega)]
    exact hv8
  have hw11 : s5.assignment (s.nVars + 11) =
      (1 - s.assignment bp.1) * s.assignment bp.2 := by
    rw [hs5, poseidon_assignment_lt hash s4 _ _ _
      (show s.nVars + 11 < s4.nVars by omega)]
    exact hv11
  refine ⟨s5, rfl, hn5, hst5, hout, ?_, ?_, rfl, ?_, ?_⟩
  · show s5.muls = s.muls ++ (gadgetTrace [bp] p s.nVars).1
    rw [hs5, poseidon_muls, hs4, multiply_muls, hs3, multiply_muls, hs2,
      multiply_muls, hs1, multiply_muls]
    simp only [List.append_assoc]
    rfl
  · rfl
  · intro g hg a ha
    have hae : ∀ i, i < s.nVars → a i = s.assignment i := fun i hi => by
      rw [ha i (by omega), hst5 i hi]
    have hpe : p.eval a = p.eval s.assignment :=
      LinearCombination.eval_congr hp fun i hi => hae i hi
    have hgmem : g = (LConeMinus bp.1, p, s.nVars + 2) ∨
        g = (LCofVar bp.1, LCofVar bp.2, s.nVars + 5) ∨
        g = (LCofVar bp.1, p, s.nVars + 8) ∨
        g = (LConeMinus bp.1, LCofVar bp.2, s.nVars + 11) := by
      simpa [gadgetTrace] using hg
    rcases hgmem with rfl | rfl | rfl | rfl
    · show (LConeMinus bp.1).eval a * p.eval a = a (s.nVars + 2)
      rw [eval_LConeMinus, hpe, hae bp.1 hb1, ha (s.nVars + 2) (by omega), hw2]
    · show (LCofVar bp.1).eval a * (LCofVar bp.2).eval a = a (s.nVars + 5)
      rw [eval_LCofVar, eval_LCofVar, hae bp.1 hb1, hae bp.2 hb2,
        ha (s.nVars + 5) (by omega), hw5]
    · show (LCofVar bp.1).eval a * p.eval a = a (s.nVars + 8)
      rw [eval_LCofVar, hpe, hae bp.1 hb1, ha (s.nVars + 8) (by omega), hw8]
    · show (LConeMinus bp.1).eval a * (LCofVar bp.2).eval a = a (s.nVars + 11)
      rw [eval_LConeMinus, eval_LCofVar, hae bp.1 hb1, hae bp.2 hb2,
        ha (s.nVars + 11) (by omega), hw11]
  · intro g hg a ha
    have hgmem : g = (lf, rt, s.nVars + 12) := by
      simpa [gadgetTrace, hlf, hrt] using hg
    subst hgmem
    show a (s.nVars + 12) = hash (lf.eval a) (rt.eval a)
    have hlfa : lf.eval a =
        (1 - s.assignment bp.1) * p.eval s.assignment +
          s.assignment bp.1 * s.assignment bp.2 := by
      rw [hlf, eval_LCadd, eval_LCofVar, eval_LCofVar,
        ha (s.nVars + 2) (by omega), ha (s.nVars + 5) (by omega), hw2, hw5]
    have hrta : rt.eval a =
        s.assignment bp.1 * p.eval s.assignment +
          (1 - s.assignment bp.1) * s.assignment bp.2 := by
      rw [hrt, eval_LCadd, eval_LCofVar, eval_LCofVar,
        ha (s.nVars + 8) (by omega), ha (s.nVars + 11) (by omega), hw8, hw11]
    rw [hlfa, hrta, ha (s.nVars + 12) (by omega), hout]

/-- The full gadget loop: allocation count, stability of earlier
assignments, well-formedness and value of the running combination (the
`gadgetFold` of the committed bit/sibling values), no linear constraints,
the exact `gadgetTrace` gate schedule, satisfaction of every emitted gate
under the produced assignment, and the identity of the final wire. -/
theorem gadgetLoop_spec {F : Type} [CommRing F] (hash : F → F → F)
    (statics : List (LinearCombination F)) :
    ∀ (bs : List (Nat × Nat)) (p : LinearCombination F) (s : R1CSState F),
      p.varsLt s.nVars → (∀ bp ∈ bs, bp.1 < s.nVars ∧ bp.2 < s.nVars) →
      (gadgetLoop hash statics bs p s).2.nVars = s.nVars + 13 * bs.length ∧
      (∀ i, i < s.nVars →
        (gadgetLoop hash statics bs p s).2.assignment i = s.assignment i) ∧
      (gadgetLoop hash statics bs p s).1.varsLt
        (gadgetLoop hash statics bs p s).2.nVars ∧
      (gadgetLoop hash statics bs p s).1.eval
          (gadgetLoop hash statics bs p s).2.assignment =
        gadgetFold hash (bs.map fun bp => (s.assignment bp.1, s.assignment bp.2))
          (p.eval s.assignment) ∧
      (gadgetLoop hash statics bs p s).2.constraints = s.constraints ∧
      (gadgetLoop hash statics bs p s).2.muls =
        s.muls ++ (gadgetTrace bs p s.nVars).1 ∧
      (gadgetLoop hash statics bs p s).2.hashGates =
        s.hashGates ++ (gadgetTrace bs p s.nVars).2 ∧
      (∀ g ∈ (gadgetTrace bs p s.nVars).1,
        g.1.eval (gadgetLoop hash statics bs p s).2.assignment *
          g.2.1.eval (gadgetLoop hash statics bs p s).2.assignment =
          (gadgetLoop hash statics bs p s).2.assignment g.2.2) ∧
      (∀ g ∈ (gadgetTrace bs p s.nVars).2,
        (gadgetLoop hash statics bs p s).2.assignment g.2.2 =
          hash (g.1.eval (gadgetLoop hash statics bs p s).2.assignment)
            (g.2.1.eval (gadgetLoop hash statics bs p s).2.assignment)) ∧
      (gadgetLoop hash statics bs p s).1 =
        (if bs.length = 0 then p
         else LCofVar (s.nVars + 13 * bs.length - 1)) := by
  intro bs
  induction bs with
  | nil =>
    intro p s hp hbs
    exact ⟨rfl, fun i _ => rfl, hp, rfl, rfl, by simp [gadgetLoop, gadgetTrace],
      by simp [gadgetLoop, gadgetTrace], by simp [gadgetTrace],
      by simp [gadgetTrace], by simp [gadgetLoop]⟩
  | cons bp bs ih =>
    intro p s hp hbs
    obtain ⟨hb1, hb2⟩ := hbs bp (List.mem_cons_self bp bs)
    obtain ⟨s5, hstep, h5n, h5stab, h5out, h5muls, h5hash, h5con, h5msat,
      h5hsat⟩ := gadgetStep_spec hash statics bp p s hp hb1 hb2
    have hcons : gadgetLoop hash statics (bp :: bs) p s =
        gadgetLoop hash statics bs (LCofVar (s.nVars + 12)) s5 := by
      rw [show gadgetLoop hash statics (bp :: bs) p s =
          gadgetLoop hash statics bs (gadgetLoop hash statics [bp] p s).1
            (gadgetLoop hash statics [bp] p s).2 from rfl, hstep]
    have hP5 : (LCofVar (s.nVars + 12) : LinearCombination F).varsLt s5.nVars :=
      varsLt_LCofVar (by omega)
    have hbs5 : ∀ bq ∈ bs, bq.1 < s5.nVars ∧ bq.2 < s5.nVars := by
      intro bq hbq
      obtain ⟨h1, h2⟩ := hbs bq (List.mem_cons_of_mem bp hbq)
      omega
    obtain ⟨ihn, ihstab, ihwf, iheval, ihcon, ihmuls, ihhash, ihmsat, ihhsat,
      ihfin⟩ := ih (LCofVar (s.nVars + 12)) s5 hP5 hbs5
    rw [h5n] at ihn ihmuls ihhash ihmsat ihhsat ihfin
    have htr1 : (gadgetTrace (bp :: bs) p s.nVars).1 =
        (gadgetTrace [bp] p s.nVars).1 ++
          (gadgetTrace bs (LCofVar (s.nVars + 12)) (s.nVars + 13)).1 := rfl
    have htr2 : (gadgetTrace (bp :: bs) p s.nVars).2 =
        (gadgetTrace [bp] p s.nVars).2 ++
          (gadgetTrace bs (LCofVar (s.nVars + 12)) (s.nVars + 13)).2 := rfl
    rw [hcons]
    refine ⟨?_, ?_, ?_, ?_, ?_, ?_, ?_, ?_, ?_, ?_⟩
    · rw [ihn, List.length_cons]
      omega
    · intro i hi
      rw [ihstab i (by omega), h5stab i hi]
    · exact ihwf
    · rw [iheval, eval_LCofVar, h5out]
      rw [show bs.map (fun bq => (s5.assignment bq.1, s5.assignment bq.2)) =
          bs.map (fun bq => (s.assignment bq.1, s.assignment bq.2)) from
        List.map_congr_left fun bq hbq => by
          obtain ⟨h1, h2⟩ := hbs bq (List.mem_cons_of_mem bp hbq)
          rw [h5stab _ h1, h5stab _ h2]]
      rfl
    · rw [ihcon, h5con]
    · rw [ihmuls, h5muls, htr1, List.append_assoc]
    · rw [ihhash, h5hash, htr2, List.append_assoc]
    · intro g hg
      rw [htr1] at hg
      rcases List.mem_append.mp hg with h | h
      · exact h5msat g h _ fun i hi => ihstab i (by omega)
      · exact ihmsat g h
    · intro g hg
      rw [htr2] at hg
      rcases List.mem_append.mp hg with h | h
      · exact h5hsat g h _ fun i hi => ihstab i (by omega)
      · exact ihhsat g h
    · rw [ihfin, List.length_cons]
      by_cases h0 : bs.length = 0
      · rw [if_pos h0, if_neg (by omega), h0]
        norm_num
      · rw [if_neg h0, if_neg (by omega)]
        congr 1
        omega

theorem gadgetLoop_append {F : Type} [CommRing F] (hash : F → F → F)
    (statics : List (LinearCombination F)) :
    ∀ (xs ys : List (Nat × Nat)) (p : LinearCombination F) (s : R1CSState F),
      gadgetLoop hash statics (xs ++ ys) p s =
        gadgetLoop hash statics ys (gadgetLoop hash statics xs p s).1
          (gadgetLoop hash statics xs p s).2 := by
  intro xs
  induction xs with
  | nil => intro ys p s; rfl
  | cons bp xs ih =>
    intro ys p s
    show gadgetLoop hash statics (xs ++ ys) _ _ = _
    exact ih ys _ _

theorem gadgetFold_cons {F : Type} [CommRing F] (hash : F → F → F)
    (bp : F × F) (rest : List (F × F)) (v : F) :
    gadgetFold hash (bp :: rest) v =
      gadgetFold hash rest
        (hash ((1 - bp.1) * v + bp.1 * bp.2)
          (bp.1 * v + (1 - bp.1) * bp.2)) := rfl

theorem getD_take {α : Type} (x : α) :
    ∀ (qs : List α) (k i : Nat), i < k → (qs.take k).getD i x = qs.getD i x := by
  intro qs
  induction qs with
  | nil => intro k i _; simp
  | cons q qs ih =>
    intro k i hik
    cases k with
    | zero => omega
    | succ k =>
      cases i with
      | zero => rfl
      | succ i => exact ih k i (by omega)

/-- The per-level semantics of the gadget on `0`/`1` bit values committed
from the index is exactly the plain bottom-up fold. -/
theorem gadgetFold_foldPath {F : Type} [CommRing F] (hash : F → F → F) :
    ∀ (qs : List F) (idx : Nat) (v : F),
      gadgetFold hash
          ((List.range qs.length).map fun i => ((bitVal idx i : F), qs.getD i 0))
          v =
        foldPath hash (lsbBits qs.length idx) qs v := by
  intro qs
  induction qs with
  | nil => intro idx v; rfl
  | cons q qs ih =>
    intro idx v
    rw [show List.range (q :: qs).length = 0 :: (List.range qs.length).map Nat.succ
        from by rw [List.length_cons, List.range_succ_eq_map],
      List.map_cons, List.map_map, gadgetFold_cons]
    have hmap : (List.range qs.length).map
        ((fun i => ((bitVal idx i : F), (q :: qs).getD i 0)) ∘ Nat.succ) =
        (List.range qs.length).map
          (fun i => ((bitVal (idx / 2) i : F), qs.getD i 0)) := by
      apply List.map_congr_left
      intro i _
      simp only [Function.comp_apply]
      congr 1
      unfold bitVal
      rw [Nat.testBit_succ]
    rw [hmap, ih (idx / 2), List.length_cons, lsbBits_cons]
    dsimp only
    show foldPath hash (lsbBits qs.length (idx / 2)) qs _ =
      foldPath hash (lsbBits qs.length (idx / 2)) qs _
    congr 1
    unfold bitVal
    cases hb : idx.testBit 0 <;> simp

theorem gadgetTrace_length_fst {F : Type} [CommRing F] :
    ∀ (bs : List (Nat × Nat)) (p : LinearCombination F) (n : Nat),
      (gadgetTrace bs p n).1.length = 4 * bs.length := by
  intro bs
  induction bs with
  | nil => intro p n; rfl
  | cons bp bs ih =>
    intro p n
    show ((gadgetTrace bs (LCofVar (n + 12)) (n + 13)).1.length + 4) = _
    rw [ih]
    rw [List.length_cons]
    ring

theorem gadgetTrace_length_snd {F : Type} [CommRing F] :
    ∀ (bs : List (Nat × Nat)) (p : LinearCombination F) (n : Nat),
      (gadgetTrace bs p n).2.length = bs.length := by
  intro bs
  induction bs with
  | nil => intro p n; rfl
  | cons bp bs ih =>
    intro p n
    show (gadgetTrace bs (LCofVar (n + 12)) (n + 13)).2.length + 1 = _
    rw [ih, List.length_cons]

theorem bitVars_zip_sibVars (d : Nat) :
    (bitVars d).zip (sibVars d) =
      (List.range d).map fun i => (1 + i, 1 + d + i) := by
  unfold bitVars sibVars
  rw [List.zip_map']

theorem merkleInputs_bit {F : Type} [CommRing F] (d idx : Nat) (val : F)
    (qs : List F) {i : Nat} (hi : i < d) :
    (merkleGadgetInputs d idx val qs).assignment (1 + i) = bitVal idx i := by
  show (if 1 + i = 0 then val
    else if 1 + i < 1 + d then bitVal idx (1 + i - 1)
    else if 1 + i - (1 + d) < qs.length then qs.getD (1 + i - (1 + d)) 0
    else 0) = bitVal idx i
  rw [if_neg (by omega), if_pos (by omega)]
  congr 1
  omega

theorem merkleInputs_sib {F : Type} [CommRing F] (d idx : Nat) (val : F)
    (qs : List F) {i : Nat} (hi : i < qs.length) :
    (merkleGadgetInputs d idx val qs).assignment (1 + d + i) = qs.getD i 0 := by
  show (if 1 + d + i = 0 then val
    else if 1 + d + i < 1 + d then bitVal idx (1 + d + i - 1)
    else if 1 + d + i - (1 + d) < qs.length then qs.getD (1 + d + i - (1 + d)) 0
    else 0) = qs.getD i 0
  rw [if_neg (by omega), if_neg (by omega), if_pos (by omega)]
  congr 1
  omega

/-- The bit/sibling values read off the input layout, for a prefix of `k`
levels. -/
theorem merkleInputs_values {F : Type} [CommRing F] (d idx : Nat) (val : F)
    (qs : List F) (hq : qs.length = d) {k : Nat} (hk : k ≤ d) :
    ((((bitVars d).zip (sibVars d)).take k).map fun bp =>
        ((merkleGadgetInputs d idx val qs).assignment bp.1,
          (merkleGadgetInputs d idx val qs).assignment bp.2)) =
      (List.range k).map fun i => ((bitVal idx i : F), qs.getD i 0) := by
  rw [bitVars_zip_sibVars, ← List.map_take, List.take_range,
    Nat.min_eq_left hk, List.map_map]
  apply List.map_congr_left
  intro i hi
  have hik : i < k := List.mem_range.mp hi
  simp only [Function.comp_apply]
  rw [merkleInputs_bit d idx val qs (by omega),
    merkleInputs_sib d idx val qs (by omega)]

/-! ## Claim theorems: the circuit gadget -/

/-- C6: per fold level `i = 0..depth-1` the gadget emits exactly the four
multiplication gates of `left = (1 - bit_i) * P + bit_i * sibling_i` and
`right = bit_i * P + (1 - bit_i) * sibling_i` (with `P` the leaf value at
`i = 0` and the previous hash output otherwise — the `gadgetTrace`
schedule, four gates per level, one hash gate fed the sums `left`/`right`
of the product wires), and after all levels adds exactly one
linear-combination-equals-constant constraint equating the final folded
combination with the public root scalar. -/
theorem C6_gadget_gate_schedule {F : Type} [CommRing F] (hash : F → F → F)
    (s₀ : R1CSState F) (depth : Nat) (root : F) (leaf_val : Nat)
    (bits sibs : List Nat) (statics : List (LinearCombination F))
    (hdb : depth ≤ bits.length) (hds : depth ≤ sibs.length)
    (hlv : leaf_val < s₀.nVars) (hbb : ∀ b ∈ bits, b < s₀.nVars)
    (hss : ∀ q ∈ sibs, q < s₀.nVars) :
    ∃ (s₁ : R1CSState F) (lcF : LinearCombination F),
      vanilla_merkle_merkle_tree_verif_gadget hash s₀ depth root leaf_val
        bits sibs statics = some s₁ ∧
      s₁.muls = s₀.muls ++
        (gadgetTrace ((bits.take depth).zip (sibs.take depth))
          (LCofVar (F := F) leaf_val) s₀.nVars).1 ∧
      (gadgetTrace ((bits.take depth).zip (sibs.take depth))
        (LCofVar (F := F) leaf_val) s₀.nVars).1.length = 4 * depth ∧
      s₁.hashGates = s₀.hashGates ++
        (gadgetTrace ((bits.take depth).zip (sibs.take depth))
          (LCofVar (F := F) leaf_val) s₀.nVars).2 ∧
      (gadgetTrace ((bits.take depth).zip (sibs.take depth))
        (LCofVar (F := F) leaf_val) s₀.nVars).2.length = depth ∧
      s₁.constraints = s₀.constraints ++ [(lcF, root)] ∧
      lcF = (if depth = 0 then LCofVar leaf_val
        else LCofVar (s₀.nVars + 13 * depth - 1)) := by
  have hzlen : ((bits.take depth).zip (sibs.take depth)).length = depth := by
    rw [List.length_zip, List.length_take, List.length_take]
    omega
  have hmem : ∀ bp ∈ (bits.take depth).zip (sibs.take depth),
      bp.1 < s₀.nVars ∧ bp.2 < s₀.nVars := by
    intro bp hbp
    obtain ⟨a, b⟩ := bp
    obtain ⟨h1, h2⟩ := List.of_mem_zip hbp
    exact ⟨hbb _ (List.take_subset _ _ h1), hss _ (List.take_subset _ _ h2)⟩
  obtain ⟨_, _, _, _, ihcon, ihmuls, ihhash, _, _, ihfin⟩ :=
    gadgetLoop_spec hash statics ((bits.take depth).zip (sibs.take depth))
      (LCofVar leaf_val) s₀ (varsLt_LCofVar hlv) hmem
  rw [hzlen] at ihfin
  refine ⟨constrain_lc_with_scalar
      (gadgetLoop hash statics ((bits.take depth).zip (sibs.take depth))
        (LCofVar leaf_val) s₀).2
      (gadgetLoop hash statics ((bits.take depth).zip (sibs.take depth))
        (LCofVar leaf_val) s₀).1 root,
    (gadgetLoop hash statics ((bits.take depth).zip (sibs.take depth))
      (LCofVar leaf_val) s₀).1, ?_, ?_, ?_, ?_, ?_, ?_, ?_⟩
  · show vanilla_merkle_merkle_tree_verif_gadget hash s₀ depth root leaf_val
      bits sibs statics = some (constrain_lc_with_scalar
        (gadgetLoop hash statics ((bits.take depth).zip (sibs.take depth))
          (LCofVar leaf_val) s₀).2
        (gadgetLoop hash statics ((bits.take depth).zip (sibs.take depth))
          (LCofVar leaf_val) s₀).1 root)
    unfold vanilla_merkle_merkle_tree_verif_gadget
    rw [if_pos ⟨hdb, hds⟩]
  · exact ihmuls
  · rw [gadgetTrace_length_fst, hzlen]
  · exact ihhash
  · rw [gadgetTrace_length_snd, hzlen]
  · show (gadgetLoop hash statics ((bits.take depth).zip (sibs.take depth))
        (LCofVar leaf_val) s₀).2.constraints ++ _ = _
    rw [ihcon]
  · exact ihfin

/-- Witness for C6: a depth-32 run on a concrete input layout. -/
theorem C6_witness :
    ∃ (s₁ : R1CSState Int) (lcF : LinearCombination Int),
      vanilla_merkle_merkle_tree_verif_gadget (fun a b : Int => a + b + 1)
        ⟨100, fun _ => 0, [], [], []⟩ 32 0 0 (List.range 32)
        ((List.range 32).map fun i => 32 + i) [] = some s₁ ∧
      s₁.constraints =
        (⟨100, fun _ => 0, [], [], []⟩ : R1CSState Int).constraints ++
          [(lcF, 0)] :=
  match C6_gadget_gate_schedule (fun a b : Int => a + b + 1)
      ⟨100, fun _ => 0, [], [], []⟩ 32 0 0 (List.range 32)
      ((List.range 32).map fun i => 32 + i) [] (by decide) (by decide)
      (by decide) (by decide) (by decide) with
  | ⟨s₁, lcF, h1, _, _, _, _, h6, _⟩ => ⟨s₁, lcF, h1, h6⟩

/-- C7: the gadget emits no constraint forcing any selector-bit variable
into `{0, 1}`: the only linear constraint it adds is the final
root-equality one, whose variable is a fresh wire distinct from every bit
variable, and every multiplication/hash gate it records is satisfied by
the prover-computed assignment whatever values (boolean or not) the input
state assigns to the bit variables — nothing the gadget itself produces
rules out a non-boolean bit assignment. -/
theorem C7_no_booleanity_constraints {F : Type} [CommRing F]
    (hash : F → F → F) (s₀ : R1CSState F) (depth : Nat) (root : F)
    (leaf_val : Nat) (bits sibs : List Nat)
    (statics : List (LinearCombination F))
    (hdb : depth ≤ bits.length) (hds : depth ≤ sibs.length)
    (hlv : leaf_val < s₀.nVars) (hbb : ∀ b ∈ bits, b < s₀.nVars)
    (hss : ∀ q ∈ sibs, q < s₀.nVars) (hd0 : 0 < depth) :
    ∃ (s₁ : R1CSState F) (lcF : LinearCombination F),
      vanilla_merkle_merkle_tree_verif_gadget hash s₀ depth root leaf_val
        bits sibs statics = some s₁ ∧
      s₁.constraints = s₀.constraints ++ [(lcF, root)] ∧
      (∀ b ∈ bits, ∀ tm ∈ lcF.terms, tm.1 ≠ b) ∧
      (∀ g ∈ s₁.muls.drop s₀.muls.length,
        g.1.eval s₁.assignment * g.2.1.eval s₁.assignment =
          s₁.assignment g.2.2) ∧
      (∀ g ∈ s₁.hashGates.drop s₀.hashGates.length,
        s₁.assignment g.2.2 =
          hash (g.1.eval s₁.assignment) (g.2.1.eval s₁.assignment)) := by
  have hzlen : ((bits.take depth).zip (sibs.take depth)).length = depth := by
    rw [List.length_zip, List.length_take, List.length_take]
    omega
  have hmem : ∀ bp ∈ (bits.take depth).zip (sibs.take depth),
      bp.1 < s₀.nVars ∧ bp.2 < s₀.nVars := by
    intro bp hbp
    obtain ⟨a, b⟩ := bp
    obtain ⟨h1, h2⟩ := List.of_mem_zip hbp
    exact ⟨hbb _ (List.take_subset _ _ h1), hss _ (List.take_subset _ _ h2)⟩
  obtain ⟨_, _, _, _, ihcon, ihmuls, ihhash, ihmsat, ihhsat, ihfin⟩ :=
    gadgetLoop_spec hash statics ((bits.take depth).zip (sibs.take depth))
      (LCofVar leaf_val) s₀ (varsLt_LCofVar hlv) hmem
  rw [hzlen] at ihfin
  refine ⟨constrain_lc_with_scalar
      (gadgetLoop hash statics ((bits.take depth).zip (sibs.take depth))
        (LCofVar leaf_val) s₀).2
      (gadgetLoop hash statics ((bits.take depth).zip (sibs.take depth))
        (LCofVar leaf_val) s₀).1 root,
    (gadgetLoop hash statics ((bits.take depth).zip (sibs.take depth))
      (LCofVar leaf_val) s₀).1, ?_, ?_, ?_, ?_, ?_⟩
  · unfold vanilla_merkle_merkle_tree_verif_gadget
    rw [if_pos ⟨hdb, hds⟩]
  · show (gadgetLoop hash statics ((bits.take depth).zip (sibs.take depth))
        (LCofVar leaf_val) s₀).2.constraints ++ _ = _
    rw [ihcon]
  · intro b hb tm htm
    rw [ihfin, if_neg (by omega)] at htm
    obtain rfl : tm = (s₀.nVars + 13 * depth - 1, (1 : F)) := by
      simpa [LCofVar] using htm
    have hblt := hbb b hb
    show s₀.nVars + 13 * depth - 1 ≠ b
    omega
  · intro g hg
    rw [show (constrain_lc_with_scalar
        (gadgetLoop hash statics ((bits.take depth).zip (sibs.take depth))
          (LCofVar leaf_val) s₀).2
        (gadgetLoop hash statics ((bits.take depth).zip (sibs.take depth))
          (LCofVar leaf_val) s₀).1 root).muls =
      (gadgetLoop hash statics ((bits.take depth).zip (sibs.take depth))
        (LCofVar leaf_val) s₀).2.muls from rfl, ihmuls, List.drop_left] at hg
    exact ihmsat g hg
  · intro g hg
    rw [show (constrain_lc_with_scalar
        (gadgetLoop hash statics ((bits.take depth).zip (sibs.take depth))
          (LCofVar leaf_val) s₀).2
        (gadgetLoop hash statics ((bits.take depth).zip (sibs.take depth))
          (LCofVar leaf_val) s₀).1 root).hashGates =
      (gadgetLoop hash statics ((bits.take depth).zip (sibs.take depth))
        (LCofVar leaf_val) s₀).2.hashGates from rfl, ihhash,
      List.drop_left] at hg
    exact ihhsat g hg

/-- Witness for C7, on an input state that assigns every bit variable the
non-boolean value 7. -/
theorem C7_witness :
    ∃ (s₁ : R1CSState Int) (lcF : LinearCombination Int),
      vanilla_merkle_merkle_tree_verif_gadget (fun a b : Int => a + b + 1)
        ⟨100, fun _ => 7, [], [], []⟩ 32 0 0 (List.range 32)
        ((List.range 32).map fun i => 32 + i) [] = some s₁ ∧
      s₁.constraints =
        (⟨100, fun _ => 7, [], [], []⟩ : R1CSState Int).constraints ++
          [(lcF, 0)] ∧
      (∀ b ∈ List.range 32, ∀ tm ∈ lcF.terms, tm.1 ≠ b) :=
  match C7_no_booleanity_constraints (fun a b : Int => a + b + 1)
      ⟨100, fun _ => 7, [], [], []⟩ 32 0 0 (List.range 32)
      ((List.range 32).map fun i => 32 + i) [] (by decide) (by decide)
      (by decide) (by decide) (by decide) (by decide) with
  | ⟨s₁, lcF, h1, h2, h3, _, _⟩ => ⟨s₁, lcF, h1, h2, h3⟩

/-- C1: running the gadget with the concrete assignments corresponding to
a `verify_proof` call — the leaf value, the index bits in leaf-to-root
order, the proof siblings reversed into leaf-to-root order — computes,
level by level, exactly the same selection-and-hash fold as
`verify_proof` (conjunct 3), so the final folded value is `verify_proof`'s
recomputed root (conjunct 4), and the single emitted constraint is
satisfied exactly when `verify_proof` returns `true` (conjunct 5, an
equivalence, so the constraint is violated exactly when it returns
`false`). -/
theorem C1_gadget_refines_verify_proof {F : Type} [CommRing F] [DecidableEq F]
    (hash : F → F → F) (t : VanillaSparseMerkleTree F) (idx : Nat) (val : F)
    (ps : List F) (oroot : Option F) (statics : List (LinearCombination F))
    (hlen : ps.length = t.depth) :
    ∃ (s₁ : R1CSState F) (lcF : LinearCombination F),
      vanilla_merkle_merkle_tree_verif_gadget hash
        (merkleGadgetInputs t.depth idx val ps.reverse) t.depth
        (oroot.getD t.root) 0 (bitVars t.depth) (sibVars t.depth) statics =
        some s₁ ∧
      s₁.constraints = [(lcF, oroot.getD t.root)] ∧
      (∀ k, k ≤ t.depth →
        ((gadgetLoop hash statics
            (((bitVars t.depth).zip (sibVars t.depth)).take k) (LCofVar 0)
            (merkleGadgetInputs t.depth idx val ps.reverse)).1).eval
            s₁.assignment =
          foldPath hash (lsbBits k idx) (ps.reverse.take k) val) ∧
      lcF.eval s₁.assignment =
        foldPath hash (lsbBits t.depth idx) ps.reverse val ∧
      ((lcF.eval s₁.assignment = oroot.getD t.root) ↔
        VanillaSparseMerkleTree.verify_proof hash t idx val ps oroot =
          some true) := by
  have hq : ps.reverse.length = t.depth := by rw [List.length_reverse, hlen]
  have hlv : (0 : Nat) < (merkleGadgetInputs t.depth idx val ps.reverse
      (F := F)).nVars := by
    show 0 < 1 + t.depth + ps.reverse.length
    omega
  have hzip := bitVars_zip_sibVars t.depth
  have hzlen : ((bitVars t.depth).zip (sibVars t.depth)).length = t.depth := by
    rw [hzip, List.length_map, List.length_range]
  have hmem : ∀ bp ∈ (bitVars t.depth).zip (sibVars t.depth),
      bp.1 < (merkleGadgetInputs t.depth idx val ps.reverse (F := F)).nVars ∧
      bp.2 < (merkleGadgetInputs t.depth idx val ps.reverse (F := F)).nVars := by
    intro bp hbp
    rw [hzip] at hbp
    obtain ⟨i, hi, rfl⟩ := List.mem_map.mp hbp
    have hid : i < t.depth := List.mem_range.mp hi
    constructor
    · show 1 + i < 1 + t.depth + ps.reverse.length
      omega
    · show 1 + t.depth + i < 1 + t.depth + ps.reverse.length
      omega
  obtain ⟨_, _, _, _, spcon, _, _, _, _, _⟩ :=
    gadgetLoop_spec hash statics ((bitVars t.depth).zip (sibVars t.depth))
      (LCofVar 0) (merkleGadgetInputs t.depth idx val ps.reverse)
      (varsLt_LCofVar hlv) hmem
  have hlevel : ∀ k, k ≤ t.depth →
      ((gadgetLoop hash statics
          (((bitVars t.depth).zip (sibVars t.depth)).take k) (LCofVar 0)
          (merkleGadgetInputs t.depth idx val ps.reverse)).1).eval
          (gadgetLoop hash statics ((bitVars t.depth).zip (sibVars t.depth))
            (LCofVar 0)
            (merkleGadgetInputs t.depth idx val ps.reverse)).2.assignment =
        foldPath hash (lsbBits k idx) (ps.reverse.take k) val := by
    intro k hk
    have hmemtk : ∀ bp ∈ ((bitVars t.depth).zip (sibVars t.depth)).take k,
        bp.1 < (merkleGadgetInputs t.depth idx val ps.reverse (F := F)).nVars ∧
        bp.2 < (merkleGadgetInputs t.depth idx val ps.reverse (F := F)).nVars :=
      fun bp hbp => hmem bp (List.take_subset _ _ hbp)
    obtain ⟨pn, _, pwf, peval, _, _, _, _, _, _⟩ :=
      gadgetLoop_spec hash statics
        (((bitVars t.depth).zip (sibVars t.depth)).take k) (LCofVar 0)
        (merkleGadgetInputs t.depth idx val ps.reverse)
        (varsLt_LCofVar hlv) hmemtk
    have hsplit := gadgetLoop_append hash statics
      (((bitVars t.depth).zip (sibVars t.depth)).take k)
      (((bitVars t.depth).zip (sibVars t.depth)).drop k) (LCofVar 0)
      (merkleGadgetInputs t.depth idx val ps.reverse)
    rw [List.take_append_drop] at hsplit
    have hmemdk : ∀ bp ∈ ((bitVars t.depth).zip (sibVars t.depth)).drop k,
        bp.1 < (gadgetLoop hash statics
            (((bitVars t.depth).zip (sibVars t.depth)).take k) (LCofVar 0)
            (merkleGadgetInputs t.depth idx val ps.reverse)).2.nVars ∧
        bp.2 < (gadgetLoop hash statics
            (((bitVars t.depth).zip (sibVars t.depth)).take k) (LCofVar 0)
            (merkleGadgetInputs t.depth idx val ps.reverse)).2.nVars := by
      intro bp hbp
      obtain ⟨h1, h2⟩ := hmem bp (List.drop_subset _ _ hbp)
      omega
    obtain ⟨_, sstab, _, _, _, _, _, _, _, _⟩ :=
      gadgetLoop_spec hash statics
        (((bitVars t.depth).zip (sibVars t.depth)).drop k)
        (gadgetLoop hash statics
          (((bitVars t.depth).zip (sibVars t.depth)).take k) (LCofVar 0)
          (merkleGadgetInputs t.depth idx val ps.reverse)).1
        (gadgetLoop hash statics
          (((bitVars t.depth).zip (sibVars t.depth)).take k) (LCofVar 0)
          (merkleGadgetInputs t.depth idx val ps.reverse)).2
        pwf hmemdk
    have hstab2 : ∀ i, i <
        (gadgetLoop hash statics
          (((bitVars t.depth).zip (sibVars t.depth)).take k) (LCofVar 0)
          (merkleGadgetInputs t.depth idx val ps.reverse)).2.nVars →
        (gadgetLoop hash statics ((bitVars t.depth).zip (sibVars t.depth))
          (LCofVar 0)
          (merkleGadgetInputs t.depth idx val ps.reverse)).2.assignment i =
        (gadgetLoop hash statics
          (((bitVars t.depth).zip (sibVars t.depth)).take k) (LCofVar 0)
          (merkleGadgetInputs t.depth idx val ps.reverse)).2.assignment i := by
      intro i hi
      rw [hsplit]
      exact sstab i hi
    rw [LinearCombination.eval_congr pwf hstab2, peval, eval_LCofVar]
    rw [show (merkleGadgetInputs t.depth idx val ps.reverse (F := F)).assignment 0 =
      val from rfl]
    rw [merkleInputs_values t.depth idx val ps.reverse hq hk]
    have hkl : (ps.reverse.take k).length = k := by
      rw [List.length_take]
      omega
    have hb := gadgetFold_foldPath hash (ps.reverse.take k) idx val
    rw [hkl] at hb
    rw [show (List.range k).map (fun i => ((bitVal idx i : F), ps.reverse.getD i 0)) =
        (List.range k).map
          (fun i => ((bitVal idx i : F), (ps.reverse.take k).getD i 0)) from
      List.map_congr_left fun i hi => by
        rw [getD_take 0 ps.reverse k i (List.mem_range.mp hi)]]
    exact hb
  have hfull := hlevel t.depth le_rfl
  rw [List.take_of_length_le (le_of_eq hzlen),
    List.take_of_length_le (le_of_eq hq)] at hfull
  refine ⟨constrain_lc_with_scalar
      (gadgetLoop hash statics ((bitVars t.depth).zip (sibVars t.depth))
        (LCofVar 0) (merkleGadgetInputs t.depth idx val ps.reverse)).2
      (gadgetLoop hash statics ((bitVars t.depth).zip (sibVars t.depth))
        (LCofVar 0) (merkleGadgetInputs t.depth idx val ps.reverse)).1
      (oroot.getD t.root),
    (gadgetLoop hash statics ((bitVars t.depth).zip (sibVars t.depth))
      (LCofVar 0) (merkleGadgetInputs t.depth idx val ps.reverse)).1,
    ?_, ?_, hlevel, hfull, ?_⟩
  · unfold vanilla_merkle_merkle_tree_verif_gadget
    rw [if_pos ⟨by simp [bitVars], by simp [sibVars]⟩,
      List.take_of_length_le (by simp [bitVars]),
      List.take_of_length_le (by simp [sibVars])]
  · show (gadgetLoop hash statics ((bitVars t.depth).zip (sibVars t.depth))
        (LCofVar 0)
        (merkleGadgetInputs t.depth idx val ps.reverse)).2.constraints ++ _ = _
    rw [spcon]
    rfl
  · show LinearCombination.eval
        (gadgetLoop hash statics ((bitVars t.depth).zip (sibVars t.depth))
          (LCofVar 0)
          (merkleGadgetInputs t.depth idx val ps.reverse)).2.assignment
        (gadgetLoop hash statics ((bitVars t.depth).zip (sibVars t.depth))
          (LCofVar 0)
          (merkleGadgetInputs t.depth idx val ps.reverse)).1 =
        oroot.getD t.root ↔ _
    rw [hfull, verify_spec hash t idx val ps oroot hlen]
    simp

/-- Witness for C1 on a concrete depth-32 tree and all-zero proof. -/
theorem C1_witness :
    (List.replicate 32 (0 : Int)).length =
      (VanillaSparseMerkleTree.new fun a b : Int => a + b + 1).depth ∧
    ∃ (s₁ : R1CSState Int) (lcF : LinearCombination Int),
      vanilla_merkle_merkle_tree_verif_gadget (fun a b : Int => a + b + 1)
        (merkleGadgetInputs
          (VanillaSparseMerkleTree.new fun a b : Int => a + b + 1).depth 0 0
          (List.replicate 32 (0 : Int)).reverse)
        (VanillaSparseMerkleTree.new fun a b : Int => a + b + 1).depth
        ((none : Option Int).getD
          (VanillaSparseMerkleTree.new fun a b : Int => a + b + 1).root) 0
        (bitVars (VanillaSparseMerkleTree.new fun a b : Int => a + b + 1).depth)
        (sibVars (VanillaSparseMerkleTree.new fun a b : Int => a + b + 1).depth)
        [] = some s₁ ∧
      ((lcF.eval s₁.assignment =
          (none : Option Int).getD
            (VanillaSparseMerkleTree.new fun a b : Int => a + b + 1).root) ↔
        VanillaSparseMerkleTree.verify_proof (fun a b : Int => a + b + 1)
          (VanillaSparseMerkleTree.new fun a b : Int => a + b + 1) 0 0
          (List.replicate 32 (0 : Int)) none = some true) :=
  ⟨rfl,
   match C1_gadget_refines_verify_proof (fun a b : Int => a + b + 1)
       (VanillaSparseMerkleTree.new fun a b : Int => a + b + 1) 0 0
       (List.replicate 32 (0 : Int)) none [] rfl with
   | ⟨s₁, lcF, h1, _, _, _, h5⟩ => ⟨s₁, lcF, h1, h5⟩⟩
